import Mathlib

/-!
# Physical page allocator with copy-on-write reference counts (kernel/kalloc.c)

A shallow embedding of `kernel/kalloc.c`: the free list `kmem.freelist`, the
reference-count table `cow_count`, the flag `cow_init`, and the functions
`kinit`, `freerange`, `kfree`, `kalloc` and `cow_kalloc`.

Physical memory is a byte-addressed map.  The free list is intrusive, as in the
source: the first machine word of a free page holds the address of the next free
page (`r->next`), and `0` ends the list.  `panic` never returns; it is modelled
as an outcome carrying the state in which the panic was raised.
-/

namespace Kalloc

/-! ## Constants and layout -/

/-- Page size in bytes (`PGSIZE`, "Allocates whole 4096-byte pages"). -/
def PGSIZE : Nat := 4096

/-- Architectural write-enable bit of a RISC-V page-table entry (`PTE_W`, bit 2). -/
def PTE_W : Nat := 4

/-- The constants that `kalloc.c` takes from headers and the linker script:
`KERNBASE` and `PHYSTOP` (memlayout.h), `end` (kernel.ld, the first address after
the kernel image) and the bit chosen as `PTE_COW` (riscv.h). -/
structure Layout where
  KERNBASE : Nat
  PHYSTOP : Nat
  kend : Nat
  PTE_COW : Nat
  deriving Repr

/-- The macro `PGROUNDUP(sz)`, `(sz + PGSIZE - 1) & ~(PGSIZE - 1)` on a `uint64`: the
sum wraps at `2 ^ 64`, and clearing the low 12 bits rounds it down to a multiple
of the page size. -/
def PGROUNDUP (sz : Nat) : Nat := (sz + PGSIZE - 1) % 2 ^ 64 / PGSIZE * PGSIZE

/-- Conversion of a `uint64` value to the 32-bit `int` of the target. -/
def toInt32 (n : Nat) : Int :=
  if n % 2 ^ 32 < 2 ^ 31 then (n % 2 ^ 32 : Nat) else ((n % 2 ^ 32 : Nat) : Int) - 2 ^ 32

/-- The table index `int cow_index = ((uint64)pa - KERNBASE) / PGSIZE;`, with the
subtraction in `uint64` and the conversion to `int`. -/
def cow_index (L : Layout) (pa : Nat) : Int :=
  toInt32 (((pa + 2 ^ 64 - L.KERNBASE) % 2 ^ 64) / PGSIZE)

/-- Number of entries of `cow_count`: `(PHYSTOP-KERNBASE)/PGSIZE`. -/
def NFRAMES (L : Layout) : Nat := (L.PHYSTOP - L.KERNBASE) / PGSIZE

/-! ## Memory -/

/-- Byte-addressed physical memory. -/
abbrev Mem := Nat → Nat

/-- The call `memset(dst, c, n)`: the byte `(unsigned char)c` is stored at `dst .. dst+n-1`. -/
def memset (mem : Mem) (dst c n : Nat) : Mem :=
  fun a => if dst ≤ a ∧ a < dst + n then c % 256 else mem a

/-- The call `memmove(dst, src, n)`: `n` bytes are copied from `src` to `dst`, read before
any of them is written. -/
def memmove (mem : Mem) (dst src n : Nat) : Mem :=
  fun a => if dst ≤ a ∧ a < dst + n then mem (src + (a - dst)) else mem a

/-- Load of a 64-bit little-endian word (a pointer) at address `a`. -/
def load64 (mem : Mem) (a : Nat) : Nat :=
  mem a % 256 + (mem (a + 1) % 256) * 256 ^ 1 + (mem (a + 2) % 256) * 256 ^ 2
    + (mem (a + 3) % 256) * 256 ^ 3 + (mem (a + 4) % 256) * 256 ^ 4
    + (mem (a + 5) % 256) * 256 ^ 5 + (mem (a + 6) % 256) * 256 ^ 6
    + (mem (a + 7) % 256) * 256 ^ 7

/-- Store of a 64-bit little-endian word (a pointer) at address `a`. -/
def store64 (mem : Mem) (a v : Nat) : Mem :=
  fun x => if a ≤ x ∧ x < a + 8 then v / 256 ^ (x - a) % 256 else mem x

/-! ## Allocator state -/

/-- The global state of `kalloc.c`: physical memory, `kmem.freelist`, the table
`cow_count` (indexed by `cow_index`) and `cow_init`.  The lock `kmem.lock` guards
single-core runs trivially and is not represented. -/
structure State where
  mem : Mem
  freelist : Nat
  cow_count : Int → Int
  cow_init : Int

/-- The messages of the `panic` calls. -/
inductive PanicMsg where
  | kfree
  | kfree_cow_count
  | cow_kalloc_old_pte
  | cow_kalloc_map
  | uvmunmap
  deriving DecidableEq, Repr

/-- Result of a call that may `panic`: either the call returns with a value, or
it panics in the given state. -/
inductive Outcome (α : Type) where
  | ok (a : α)
  | panic (msg : PanicMsg) (s : State)

/-- The state at program start: `kmem.freelist`, `cow_count` and `cow_init` are
zero-initialized globals; memory contents are arbitrary. -/
def boot (mem : Mem) : State :=
  { mem := mem, freelist := 0, cow_count := fun _ => 0, cow_init := 0 }

/-! ## kfree, kalloc, freerange, kinit -/

/-- The function `kfree(pa)`. -/
def kfree (L : Layout) (s : State) (pa : Nat) : Outcome State :=
  if pa % PGSIZE ≠ 0 ∨ pa < L.kend ∨ pa ≥ L.PHYSTOP then
    .panic .kfree s
  else
    let idx := cow_index L pa
    if s.cow_init ≠ 0 ∧ s.cow_count idx ≤ 0 then
      .panic .kfree_cow_count s
    else if s.cow_count idx > 1 then
      .ok { s with cow_count := Function.update s.cow_count idx (s.cow_count idx - 1) }
    else
      -- cow_count[cow_index] = 0; memset(pa, 1, PGSIZE);
      let mem1 := memset s.mem pa 1 PGSIZE
      -- r->next = kmem.freelist; kmem.freelist = r;
      .ok { s with
              cow_count := Function.update s.cow_count idx 0
              mem := store64 mem1 pa s.freelist
              freelist := pa }

/-- The function `kalloc()`: the returned pointer (`0` when no page is free) and the new state. -/
def kalloc (L : Layout) (s : State) : Nat × State :=
  let r := s.freelist
  if r ≠ 0 then
    -- kmem.freelist = r->next; memset((char*)r, 5, PGSIZE); cow_count[cow_index] = 1;
    (r, { s with
            freelist := load64 s.mem r
            mem := memset s.mem r 5 PGSIZE
            cow_count := Function.update s.cow_count (cow_index L r) 1 })
  else
    (r, s)

/-- The loop of `freerange`: `for(; p + PGSIZE <= pa_end; p += PGSIZE) kfree(p);`. -/
def freerange_loop (L : Layout) (pa_end : Nat) (p : Nat) (s : State) : Outcome State :=
  if p + PGSIZE ≤ pa_end then
    match kfree L s p with
    | .ok s' => freerange_loop L pa_end (p + PGSIZE) s'
    | .panic m s' => .panic m s'
  else
    .ok s
termination_by pa_end - p
decreasing_by simp only [PGSIZE] at *; omega

/-- The function `freerange(pa_start, pa_end)`. -/
def freerange (L : Layout) (s : State) (pa_start pa_end : Nat) : Outcome State :=
  freerange_loop L pa_end (PGROUNDUP pa_start) s

/-- The function `kinit()`: `freerange(end, (void*)PHYSTOP); cow_init = 1;`. -/
def kinit (L : Layout) (s : State) : Outcome State :=
  match freerange L s L.kend L.PHYSTOP with
  | .ok s' => .ok { s' with cow_init := 1 }
  | .panic m s' => .panic m s'

/-! ## Page tables and cow_kalloc -/

/-- The expression `a & ~b` on flag words. -/
def andNot (a b : Nat) : Nat := Nat.bitwise (fun x y => x && !y) a b

/-- Modelled from the spec: the page-table entry type `pte_t` with the macros
`PTE2PA` and `PTE_FLAGS` (riscv.h) is missing from the sources; an entry holds
"the mapping's permission flags and physical frame address". -/
structure Pte where
  pa : Nat
  flags : Nat
  deriving DecidableEq, Repr

/-- Modelled from the spec: the type `pagetable_t` (riscv.h, vm.c) is missing from
the sources; a page table assigns to a virtual address its entry, or none when
the address is unmapped. -/
abbrev PageTable := Nat → Option Pte

/-- Modelled from the spec: the function `walk` (vm.c) is missing from the sources;
"must return the existing entry for a mapped address; None for an unmapped
address". -/
def walk (pagetable : PageTable) (va : Nat) : Option Pte := pagetable va

/-- Modelled from the spec: the function `uvmunmap` (vm.c) is missing from the
sources; called as `uvmunmap(pagetable, va, 1, 1)` it removes the mapping of
`va` and, `release_frames` being true, "invokes FramePool.release once per
unmapped frame as a side effect".  Unmapping an address without a mapping is a
panic. -/
def uvmunmap (L : Layout) (s : State) (pagetable : PageTable) (va : Nat) :
    Outcome (State × PageTable) :=
  match walk pagetable va with
  | none => .panic .uvmunmap s
  | some pte =>
    match kfree L s pte.pa with
    | .ok s' => .ok (s', Function.update pagetable va none)
    | .panic m s' => .panic m s'

/-- Modelled from the spec: the function `mappages` (vm.c) is missing from the
sources; called for one page it "installs a new mapping; fails if the virtual
range is already mapped or on address-space resource exhaustion".  Whether the
address space has the resources for the new mapping is not determined by the
sources: it is the argument `room`.  The value `none` stands for the result `-1`. -/
def mappages (room : Bool) (pagetable : PageTable) (va pa perm : Nat) : Option PageTable :=
  match walk pagetable va with
  | some _ => none
  | none =>
    if room then some (Function.update pagetable va (some { pa := pa, flags := perm }))
    else none

/-- Result of `cow_kalloc`: it returns a pointer (`0` for out of memory), or it
panics; both with the allocator state and the page table reached. -/
inductive CowOutcome where
  | ret (new_pa : Nat) (s : State) (pagetable : PageTable)
  | panic (msg : PanicMsg) (s : State) (pagetable : PageTable)

/-- The function `cow_kalloc(pagetable, va)`; `room` tells whether `mappages` finds
the resources for the new mapping.  The `printf` call only writes to the console
and is left out. -/
def cow_kalloc (L : Layout) (room : Bool) (s : State) (pagetable : PageTable) (va : Nat) :
    CowOutcome :=
  match walk pagetable va with
  | none => .panic .cow_kalloc_old_pte s pagetable
  | some pte_old =>
    -- old_perm = PTE_FLAGS(*pte_old); old_perm &= ~(PTE_COW); old_pa = PTE2PA(*pte_old);
    let old_perm := andNot pte_old.flags L.PTE_COW
    let old_pa := pte_old.pa
    -- uvmunmap(pagetable, va, 1, 1);
    match uvmunmap L s pagetable va with
    | .panic m s1 => .panic m s1 pagetable
    | .ok (s1, pagetable1) =>
      -- new_pa = (uint64)kalloc();
      let r := kalloc L s1
      let new_pa := r.1
      let s2 := r.2
      if new_pa = 0 then
        .ret 0 s2 pagetable1
      else
        -- memmove((char *)new_pa, (char *)old_pa, PGSIZE);
        let s3 := { s2 with mem := memmove s2.mem new_pa old_pa PGSIZE }
        match mappages room pagetable1 va new_pa (old_perm ||| PTE_W) with
        | none => .panic .cow_kalloc_map s3 pagetable1
        | some pagetable2 => .ret new_pa s3 pagetable2

/-! ## Well-formedness predicates -/

/-- Sanity of the layout constants: the kernel image ends inside
`[KERNBASE, PHYSTOP]`, above address `0`; addresses fit 64 bits; `PHYSTOP` is
page-aligned; and the number of table entries fits an `int`. -/
def Layout.WF (L : Layout) : Prop :=
  L.KERNBASE ≤ L.kend ∧ 0 < L.kend ∧ L.kend ≤ L.PHYSTOP ∧ L.PHYSTOP < 2 ^ 64 ∧
    L.PHYSTOP % PGSIZE = 0 ∧ NFRAMES L < 2 ^ 31

instance (L : Layout) : Decidable L.WF := by unfold Layout.WF; infer_instance

/-- The addresses accepted by the first check of `kfree`: page-aligned and inside
`[end, PHYSTOP)`. -/
def ValidFrame (L : Layout) (pa : Nat) : Prop :=
  pa % PGSIZE = 0 ∧ L.kend ≤ pa ∧ pa < L.PHYSTOP

instance (L : Layout) (pa : Nat) : Decidable (ValidFrame L pa) := by
  unfold ValidFrame; infer_instance

/-- The linked list starting at `head` in memory `mem` consists of the pages `l`,
in this order: each page holds the address of the next in its first word, and
`0` ends the list. -/
def IsFreeList (mem : Mem) : Nat → List Nat → Prop
  | head, [] => head = 0
  | head, x :: xs => head = x ∧ x ≠ 0 ∧ IsFreeList mem (load64 mem x) xs

/-- The free list of state `s` is the list `l` of pairwise distinct valid frames,
each with reference count `0`. -/
def FreeListInv (L : Layout) (s : State) (l : List Nat) : Prop :=
  IsFreeList s.mem s.freelist l ∧ l.Nodup ∧
    ∀ x ∈ l, ValidFrame L x ∧ s.cow_count (cow_index L x) = 0

instance decIsFreeList (mem : Mem) : (head : Nat) → (l : List Nat) →
    Decidable (IsFreeList mem head l)
  | head, [] => inferInstanceAs (Decidable (head = 0))
  | head, x :: xs =>
    have := decIsFreeList mem (load64 mem x) xs
    inferInstanceAs (Decidable (head = x ∧ x ≠ 0 ∧ IsFreeList mem (load64 mem x) xs))

instance (L : Layout) (s : State) (l : List Nat) : Decidable (FreeListInv L s l) := by
  unfold FreeListInv; infer_instance

/-! ## Runs of the allocator -/

/-- Modelled from the spec: the operation `increment(frame)` of the reference-count
table is called by the address-space duplication code (vm.c), which is missing
from the sources; it adds 1 to the frame's entry of `cow_count`. -/
def cow_increment (L : Layout) (s : State) (pa : Nat) : State :=
  { s with
    cow_count := Function.update s.cow_count (cow_index L pa)
      (s.cow_count (cow_index L pa) + 1) }

/-- Frame `pa` is on the free list of state `s`. -/
def OnFreeList (s : State) (pa : Nat) : Prop :=
  ∃ l, IsFreeList s.mem s.freelist l ∧ pa ∈ l

/-- The state carried by an outcome. -/
def Outcome.state : Outcome State → State
  | .ok s => s
  | .panic _ s => s

/-- The allocator states reachable from `kinit` at boot by `kalloc`, by calls of
`kfree` that return, and by increments of the count of an allocated frame (a
valid frame that is not on the free list; the count is an `int` and is
incremented only below `INT_MAX`). -/
inductive Reachable (L : Layout) : State → Prop where
  | init (mem : Mem) (s : State) : kinit L (boot mem) = .ok s → Reachable L s
  | alloc (s : State) : Reachable L s → Reachable L (kalloc L s).2
  | free (s : State) (pa : Nat) (s' : State) :
      Reachable L s → kfree L s pa = .ok s' → Reachable L s'
  | incr (s : State) (pa : Nat) :
      Reachable L s → ValidFrame L pa → ¬ OnFreeList s pa →
      s.cow_count (cow_index L pa) < 2 ^ 31 - 1 → Reachable L (cow_increment L s pa)

/-- The free list after `n` pages `p`, `p + PGSIZE`, ... were pushed in this order
on the list `l`. -/
def pushed (p : Nat) : Nat → List Nat → List Nat
  | 0, l => l
  | n + 1, l => pushed (p + PGSIZE) n (p :: l)

/-- The pointers returned by `n` consecutive calls of `kalloc`, and the state after
them. -/
def kalloc_n (L : Layout) : Nat → State → List Nat × State
  | 0, s => ([], s)
  | n + 1, s => ((kalloc L s).1 :: (kalloc_n L n (kalloc L s).2).1,
      (kalloc_n L n (kalloc L s).2).2)

/-- The allocator invariant after bootstrap, for the free list `l`: the free list
is well formed, its frames are pairwise distinct valid frames with count 0, every
valid frame that is not on it has a count of at least 1, and `cow_init` is 1. -/
def Inv (L : Layout) (s : State) (l : List Nat) : Prop :=
  FreeListInv L s l ∧
    (∀ pa, ValidFrame L pa → pa ∉ l → 1 ≤ s.cow_count (cow_index L pa)) ∧ s.cow_init = 1

/-! ## Concrete layout and states used to instantiate the theorems -/

/-- A small layout: the kernel image ends in the middle of the first page after
`KERNBASE`, and three whole pages `0x80001000`, `0x80002000`, `0x80003000` follow. -/
def demoLayout : Layout :=
  { KERNBASE := 0x80000000, PHYSTOP := 0x80004000, kend := 0x80000800, PTE_COW := 256 }

/-- A state after bootstrap over `demoLayout`: page `0x80002000` is free, pages
`0x80001000` and `0x80003000` are allocated with counts `c1` and `1`. -/
def demoState (c1 : Int) : State :=
  { mem := fun a => if 0x80001000 ≤ a ∧ a < 0x80002000 then 7 else 0
    freelist := 0x80002000
    cow_count := fun i => if i = 1 then c1 else if i = 3 then 1 else 0
    cow_init := 1 }

/-- A page table with one mapping: virtual page `0x4000` is mapped to the frame
`0x80001000` with the flags V, R, U and the COW marker of `demoLayout`. -/
def demoPageTable : PageTable :=
  fun va => if va = 0x4000 then some { pa := 0x80001000, flags := 1 + 2 + 16 + 256 } else none

/-- The state in which `kinit` returns over `demoLayout`, from zeroed memory. -/
def demoBooted : State := (kinit demoLayout (boot (fun _ => 0))).state

/-- The outcome of `n` consecutive calls `kfree(pa)`; a panic ends the run. -/
def kfree_n (L : Layout) : Nat → State → Nat → Outcome State
  | 0, s, _ => .ok s
  | n + 1, s, pa =>
    match kfree L s pa with
    | .ok s' => kfree_n L n s' pa
    | .panic m s' => .panic m s'

/-- The pointer returned by `cow_kalloc`, if it returns. -/
def CowOutcome.returned : CowOutcome → Option Nat
  | .ret new_pa _ _ => some new_pa
  | .panic _ _ _ => none

/-- The allocator state in which `cow_kalloc` returns or panics. -/
def CowOutcome.state : CowOutcome → State
  | .ret _ s _ => s
  | .panic _ s _ => s

/-- The page table with which `cow_kalloc` returns or panics. -/
def CowOutcome.pagetable : CowOutcome → PageTable
  | .ret _ _ pagetable => pagetable
  | .panic _ _ pagetable => pagetable

/-- The message with which `cow_kalloc` panics, if it panics. -/
def CowOutcome.panicked : CowOutcome → Option PanicMsg
  | .ret _ _ _ => none
  | .panic msg _ _ => some msg

/-- A state after bootstrap over `demoLayout` with an empty free list: the pages
`0x80001000`, `0x80002000`, `0x80003000` are allocated with counts `c1`, `1`, `1`. -/
def demoStateFull (c1 : Int) : State :=
  { mem := fun a => if 0x80001000 ≤ a ∧ a < 0x80002000 then 7 else 0
    freelist := 0
    cow_count := fun i => if i = 1 then c1 else if i = 2 then 1 else if i = 3 then 1 else 0
    cow_init := 1 }

/-- A layout with 8 TiB and one page of managed memory above the first page:
`(PHYSTOP - KERNBASE) / PGSIZE` is `2 ^ 31 + 1`. -/
def hugeLayout : Layout :=
  { KERNBASE := 0x80000000, PHYSTOP := 0x80080001000, kend := 0x80001000, PTE_COW := 256 }

/-! ## Memory lemmas -/

theorem load64_store64 (mem : Mem) (a v : Nat) (hv : v < 2 ^ 64) :
    load64 (store64 mem a v) a = v := by
  have h0 : a ≤ a ∧ a < a + 8 := by omega
  have h1 : a ≤ a + 1 ∧ a + 1 < a + 8 := by omega
  have h2 : a ≤ a + 2 ∧ a + 2 < a + 8 := by omega
  have h3 : a ≤ a + 3 ∧ a + 3 < a + 8 := by omega
  have h4 : a ≤ a + 4 ∧ a + 4 < a + 8 := by omega
  have h5 : a ≤ a + 5 ∧ a + 5 < a + 8 := by omega
  have h6 : a ≤ a + 6 ∧ a + 6 < a + 8 := by omega
  have h7 : a ≤ a + 7 ∧ a + 7 < a + 8 := by omega
  simp only [load64, store64, h0, h1, h2, h3, h4, h5, h6, h7, and_self, if_true,
    Nat.sub_self, Nat.add_sub_cancel_left, Nat.mod_mod]
  norm_num at hv ⊢
  omega

theorem load64_congr (m1 m2 : Mem) (a : Nat) (h : ∀ k, k < 8 → m1 (a + k) = m2 (a + k)) :
    load64 m1 a = load64 m2 a := by
  have e0 := h 0 (by omega)
  simp only [Nat.add_zero] at e0
  simp only [load64, e0, h 1 (by omega), h 2 (by omega), h 3 (by omega), h 4 (by omega),
    h 5 (by omega), h 6 (by omega), h 7 (by omega)]

theorem memset_inside (mem : Mem) (dst c n a : Nat) (h1 : dst ≤ a) (h2 : a < dst + n) :
    memset mem dst c n a = c % 256 := by
  simp [memset, h1, h2]

theorem memset_outside (mem : Mem) (dst c n a : Nat) (h : a < dst ∨ dst + n ≤ a) :
    memset mem dst c n a = mem a := by
  have : ¬ (dst ≤ a ∧ a < dst + n) := by omega
  simp [memset, this]

theorem store64_outside (mem : Mem) (a v x : Nat) (h : x < a ∨ a + 8 ≤ x) :
    store64 mem a v x = mem x := by
  have : ¬ (a ≤ x ∧ x < a + 8) := by omega
  simp [store64, this]

theorem IsFreeList_congr (m1 m2 : Mem) (l : List Nat) :
    ∀ head, IsFreeList m1 head l → (∀ x ∈ l, ∀ k, k < 8 → m2 (x + k) = m1 (x + k)) →
      IsFreeList m2 head l := by
  induction l with
  | nil => intro head h _; exact h
  | cons x xs ih =>
    intro head h hm
    obtain ⟨h1, h2, h3⟩ := h
    refine ⟨h1, h2, ?_⟩
    have e : load64 m2 x = load64 m1 x :=
      load64_congr m2 m1 x (fun k hk => hm x (List.mem_cons_self _ _) k hk)
    rw [e]
    exact ih _ h3 (fun y hy k hk => hm y (List.mem_cons_of_mem _ hy) k hk)

theorem IsFreeList_unique (mem : Mem) (l1 : List Nat) :
    ∀ (l2 : List Nat) head, IsFreeList mem head l1 → IsFreeList mem head l2 → l1 = l2 := by
  induction l1 with
  | nil =>
    intro l2 head h1 h2
    cases l2 with
    | nil => rfl
    | cons y ys =>
      obtain ⟨e, hy, _⟩ := h2
      have h0 : head = 0 := h1
      omega
  | cons x xs ih =>
    intro l2 head h1 h2
    cases l2 with
    | nil =>
      obtain ⟨e, hx, _⟩ := h1
      have h0 : head = 0 := h2
      omega
    | cons y ys =>
      obtain ⟨e1, _, t1⟩ := h1
      obtain ⟨e2, _, t2⟩ := h2
      have exy : x = y := by omega
      subst exy
      rw [ih ys _ t1 t2]

/-! ## Basic facts about the layout and the free list -/

theorem IsFreeList_head (mem : Mem) (head : Nat) (l : List Nat) (h : IsFreeList mem head l) :
    head = 0 ∨ head ∈ l := by
  cases l with
  | nil => exact Or.inl h
  | cons x xs => exact Or.inr (by rw [h.1]; exact List.mem_cons_self _ _)

theorem ValidFrame_ne_zero (L : Layout) (hL : L.WF) (pa : Nat) (h : ValidFrame L pa) :
    pa ≠ 0 := by
  obtain ⟨_, h0, _⟩ := hL
  obtain ⟨_, h1, _⟩ := h
  omega

theorem ValidFrame_lt (L : Layout) (hL : L.WF) (pa : Nat) (h : ValidFrame L pa) :
    pa < 2 ^ 64 := by
  obtain ⟨_, _, _, h0, _⟩ := hL
  obtain ⟨_, _, h1⟩ := h
  omega

theorem FreeListInv_head_lt (L : Layout) (hL : L.WF) (s : State) (l : List Nat)
    (h : FreeListInv L s l) : s.freelist < 2 ^ 64 := by
  rcases IsFreeList_head _ _ _ h.1 with h0 | h1
  · rw [h0]; norm_num
  · exact ValidFrame_lt L hL _ (h.2.2 _ h1).1

/-- Two distinct page-aligned addresses: the first word of one lies outside the
page of the other. -/
theorem page_disjoint (x pa k : Nat) (hx : x % PGSIZE = 0) (hpa : pa % PGSIZE = 0)
    (hne : x ≠ pa) (hk : k < 8) : x + k < pa ∨ pa + PGSIZE ≤ x + k := by
  simp only [PGSIZE] at *
  omega

/-- Pushing page `pa` on the free list `l`, as the last lines of `kfree` do. -/
theorem IsFreeList_push (mem : Mem) (head pa : Nat) (l : List Nat)
    (hl : IsFreeList mem head l) (hhead : head < 2 ^ 64) (hpa : pa % PGSIZE = 0)
    (hpa0 : pa ≠ 0) (hal : ∀ x ∈ l, x % PGSIZE = 0 ∧ x ≠ pa) :
    IsFreeList (store64 (memset mem pa 1 PGSIZE) pa head) pa (pa :: l) := by
  refine ⟨rfl, hpa0, ?_⟩
  rw [load64_store64 _ _ _ hhead]
  refine IsFreeList_congr mem _ l head hl ?_
  intro x hx k hk
  have hd := page_disjoint x pa k (hal x hx).1 hpa (hal x hx).2 hk
  rw [store64_outside _ _ _ _ (by simp only [PGSIZE] at hd; omega), memset_outside _ _ _ _ _ hd]

/-- Popping the head `x` of the free list and poisoning it, as `kalloc` does. -/
theorem IsFreeList_pop (mem : Mem) (x : Nat) (xs : List Nat)
    (hl : IsFreeList mem x (x :: xs)) (hx : x % PGSIZE = 0)
    (hal : ∀ y ∈ xs, y % PGSIZE = 0 ∧ y ≠ x) :
    IsFreeList (memset mem x 5 PGSIZE) (load64 mem x) xs := by
  refine IsFreeList_congr mem _ xs _ hl.2.2 ?_
  intro y hy k hk
  exact memset_outside _ _ _ _ _ (page_disjoint y x k (hal y hy).1 hx (hal y hy).2 hk)

/-! ## The three paths of kfree -/

theorem kfree_invalid (L : Layout) (s : State) (pa : Nat)
    (h : pa % PGSIZE ≠ 0 ∨ pa < L.kend ∨ pa ≥ L.PHYSTOP) :
    kfree L s pa = .panic .kfree s := by
  simp only [kfree, h, if_true]

theorem kfree_nonpositive (L : Layout) (s : State) (pa : Nat) (hpa : ValidFrame L pa)
    (hinit : s.cow_init ≠ 0) (hc : s.cow_count (cow_index L pa) ≤ 0) :
    kfree L s pa = .panic .kfree_cow_count s := by
  obtain ⟨h1, h2, h3⟩ := hpa
  have hv : ¬ (pa % PGSIZE ≠ 0 ∨ pa < L.kend ∨ pa ≥ L.PHYSTOP) := by omega
  simp only [kfree, hv, if_false]
  rw [if_pos ⟨hinit, hc⟩]

theorem kfree_decrement (L : Layout) (s : State) (pa : Nat) (hpa : ValidFrame L pa)
    (hc : 1 < s.cow_count (cow_index L pa)) :
    kfree L s pa = .ok { s with
      cow_count := Function.update s.cow_count (cow_index L pa)
        (s.cow_count (cow_index L pa) - 1) } := by
  obtain ⟨h1, h2, h3⟩ := hpa
  have hv : ¬ (pa % PGSIZE ≠ 0 ∨ pa < L.kend ∨ pa ≥ L.PHYSTOP) := by omega
  have hn : ¬ (s.cow_init ≠ 0 ∧ s.cow_count (cow_index L pa) ≤ 0) := by omega
  simp only [kfree, hv, if_false]
  rw [if_neg hn, if_pos hc]

theorem kfree_recycle (L : Layout) (s : State) (pa : Nat) (hpa : ValidFrame L pa)
    (hn : ¬ (s.cow_init ≠ 0 ∧ s.cow_count (cow_index L pa) ≤ 0))
    (hc : s.cow_count (cow_index L pa) ≤ 1) :
    kfree L s pa = .ok { s with
      cow_count := Function.update s.cow_count (cow_index L pa) 0
      mem := store64 (memset s.mem pa 1 PGSIZE) pa s.freelist
      freelist := pa } := by
  obtain ⟨h1, h2, h3⟩ := hpa
  have hv : ¬ (pa % PGSIZE ≠ 0 ∨ pa < L.kend ∨ pa ≥ L.PHYSTOP) := by omega
  have hc' : ¬ (s.cow_count (cow_index L pa) > 1) := by omega
  simp only [kfree, hv, if_false]
  rw [if_neg hn, if_neg hc']

/-! ## Release and allocate: the contracts -/

/-- C1: in every well-formed allocator state, whatever the value of `cow_init` (so
in particular after bootstrap, `cow_init = 1`), `kfree` of a valid frame whose
count is exactly 1 returns; it sets the count to 0, overwrites all 4096 bytes of the frame
with the byte 1 (which is not the allocation byte 5) and then pushes the frame:
the old head is stored in the frame's first word, the frame becomes the head, and
the free list `l` becomes `pa :: l`, one element longer. -/
theorem kfree_last_owner (L : Layout) (s : State) (pa : Nat) (l : List Nat)
    (hL : L.WF) (hpa : ValidFrame L pa)
    (hc : s.cow_count (cow_index L pa) = 1) (hl : FreeListInv L s l) :
    ∃ s' m1, kfree L s pa = .ok s' ∧
      s'.cow_count (cow_index L pa) = 0 ∧
      (∀ i, i < 4096 → m1 (pa + i) = 1) ∧ (1 : Nat) ≠ 5 ∧
      (∀ a, a < pa ∨ pa + 4096 ≤ a → m1 a = s.mem a) ∧
      s'.mem = store64 m1 pa s.freelist ∧ s'.freelist = pa ∧
      (∀ i, 8 ≤ i → i < 4096 → s'.mem (pa + i) = 1) ∧
      IsFreeList s'.mem s'.freelist (pa :: l) ∧ (pa :: l).length = l.length + 1 := by
  have hn : ¬ (s.cow_init ≠ 0 ∧ s.cow_count (cow_index L pa) ≤ 0) := by omega
  have hnot : ∀ x ∈ l, x % PGSIZE = 0 ∧ x ≠ pa := by
    intro x hx
    refine ⟨(hl.2.2 x hx).1.1, ?_⟩
    intro e
    have := (hl.2.2 x hx).2
    rw [e] at this
    omega
  refine ⟨_, memset s.mem pa 1 PGSIZE, kfree_recycle L s pa hpa hn (by omega), ?_, ?_, by decide,
    ?_, rfl, rfl, ?_, ?_, rfl⟩
  · simp
  · intro i hi
    exact memset_inside _ _ _ _ _ (by omega) (by simp only [PGSIZE]; omega)
  · intro a ha
    exact memset_outside _ _ _ _ _ (by simp only [PGSIZE]; omega)
  · intro i h8 hi
    show store64 (memset s.mem pa 1 PGSIZE) pa s.freelist (pa + i) = 1
    rw [store64_outside _ _ _ _ (by omega)]
    exact memset_inside _ _ _ _ _ (by omega) (by simp only [PGSIZE]; omega)
  · exact IsFreeList_push s.mem s.freelist pa l hl.1 (FreeListInv_head_lt L hL s l hl) hpa.1
      (ValidFrame_ne_zero L hL pa hpa) hnot

theorem kfree_last_owner_witness :
    ∃ s' m1, kfree demoLayout (demoState 1) 0x80001000 = .ok s' ∧
      s'.cow_count (cow_index demoLayout 0x80001000) = 0 ∧
      (∀ i, i < 4096 → m1 (0x80001000 + i) = 1) ∧ (1 : Nat) ≠ 5 ∧
      (∀ a, a < 0x80001000 ∨ 0x80001000 + 4096 ≤ a → m1 a = (demoState 1).mem a) ∧
      s'.mem = store64 m1 0x80001000 (demoState 1).freelist ∧ s'.freelist = 0x80001000 ∧
      (∀ i, 8 ≤ i → i < 4096 → s'.mem (0x80001000 + i) = 1) ∧
      IsFreeList s'.mem s'.freelist [0x80001000, 0x80002000] ∧
      [0x80001000, 0x80002000].length = [0x80002000].length + 1 :=
  kfree_last_owner demoLayout (demoState 1) 0x80001000 [0x80002000]
    (by decide) (by decide) (by decide) (by decide)

/-- C2: `kfree` of a valid frame whose count `n` is greater than 1 returns with the
count `n - 1`; memory (so the frame's contents), `kmem.freelist`, `cow_init` and
every other count are as before, so the free list is the same list. -/
theorem kfree_shared (L : Layout) (s : State) (pa : Nat) (hpa : ValidFrame L pa)
    (hc : 1 < s.cow_count (cow_index L pa)) :
    ∃ s', kfree L s pa = .ok s' ∧
      s'.cow_count (cow_index L pa) = s.cow_count (cow_index L pa) - 1 ∧
      s'.freelist = s.freelist ∧ s'.mem = s.mem ∧ s'.cow_init = s.cow_init ∧
      (∀ i, i ≠ cow_index L pa → s'.cow_count i = s.cow_count i) ∧
      (∀ l, IsFreeList s'.mem s'.freelist l ↔ IsFreeList s.mem s.freelist l) := by
  refine ⟨_, kfree_decrement L s pa hpa hc, ?_, rfl, rfl, rfl, ?_, fun l => Iff.rfl⟩
  · simp
  · intro i hi
    simp [Function.update_noteq hi]

theorem kfree_shared_witness :
    ∃ s', kfree demoLayout (demoState 2) 0x80001000 = .ok s' ∧
      s'.cow_count (cow_index demoLayout 0x80001000)
        = (demoState 2).cow_count (cow_index demoLayout 0x80001000) - 1 ∧
      s'.freelist = (demoState 2).freelist ∧ s'.mem = (demoState 2).mem ∧
      s'.cow_init = (demoState 2).cow_init ∧
      (∀ i, i ≠ cow_index demoLayout 0x80001000 →
        s'.cow_count i = (demoState 2).cow_count i) ∧
      (∀ l, IsFreeList s'.mem s'.freelist l ↔
        IsFreeList (demoState 2).mem (demoState 2).freelist l) :=
  kfree_shared demoLayout (demoState 2) 0x80001000 (by decide) (by decide)

/-- C3: `kalloc` returns 0 exactly when `kmem.freelist` is 0, that is when the free
list is empty, and then the state is unchanged; otherwise, the free list being
`x :: xs`, it returns the head `x`, the free list becomes `xs`, all 4096 bytes of
`x` are 5 and the count of `x` is 1. -/
theorem kalloc_contract (L : Layout) (s : State) (l : List Nat) (hl : FreeListInv L s l) :
    ((kalloc L s).1 = 0 ↔ s.freelist = 0) ∧ ((kalloc L s).1 = 0 ↔ l = []) ∧
      ((kalloc L s).1 = 0 → (kalloc L s).2 = s) ∧
      (∀ x xs, l = x :: xs →
        (kalloc L s).1 = x ∧ x ≠ 0 ∧
        IsFreeList (kalloc L s).2.mem (kalloc L s).2.freelist xs ∧
        (∀ i, i < 4096 → (kalloc L s).2.mem (x + i) = 5) ∧
        (kalloc L s).2.cow_count (cow_index L x) = 1) := by
  have hret : (kalloc L s).1 = s.freelist := by
    unfold kalloc
    by_cases h : s.freelist = 0 <;> simp [h]
  refine ⟨by rw [hret], ?_, ?_, ?_⟩
  · rw [hret]
    cases l with
    | nil => simpa using hl.1
    | cons x xs =>
      have h1 := hl.1.1
      have h2 := hl.1.2.1
      simp only [reduceCtorEq, iff_false]
      omega
  · rw [hret]
    intro h
    simp [kalloc, h]
  · intro x xs e
    subst e
    obtain ⟨hlist, hnd, hval⟩ := hl
    have hx : s.freelist = x := hlist.1
    have hx0 : x ≠ 0 := hlist.2.1
    have hne : s.freelist ≠ 0 := by omega
    have hk : kalloc L s = (s.freelist, { s with
        freelist := load64 s.mem s.freelist
        mem := memset s.mem s.freelist 5 PGSIZE
        cow_count := Function.update s.cow_count (cow_index L s.freelist) 1 }) := by
      simp [kalloc, hne]
    rw [hk, hx]
    refine ⟨rfl, hx0, ?_, ?_, ?_⟩
    · rw [hx] at hlist
      refine IsFreeList_pop s.mem x xs hlist (hval x (List.mem_cons_self _ _)).1.1 ?_
      intro y hy
      refine ⟨(hval y (List.mem_cons_of_mem _ hy)).1.1, ?_⟩
      intro e
      rw [e] at hy
      exact (List.nodup_cons.mp hnd).1 hy
    · intro i hi
      exact memset_inside _ _ _ _ _ (by omega) (by simp only [PGSIZE]; omega)
    · simp

theorem kalloc_contract_witness :
    (kalloc demoLayout (demoState 1)).1 = 0x80002000 ∧
      IsFreeList (kalloc demoLayout (demoState 1)).2.mem
        (kalloc demoLayout (demoState 1)).2.freelist [] ∧
      (∀ i, i < 4096 → (kalloc demoLayout (demoState 1)).2.mem (0x80002000 + i) = 5) ∧
      (kalloc demoLayout (demoState 1)).2.cow_count (cow_index demoLayout 0x80002000) = 1 :=
  have h := (kalloc_contract demoLayout (demoState 1) [0x80002000] (by decide)).2.2.2
    0x80002000 [] rfl
  ⟨h.1, h.2.2.1, h.2.2.2.1, h.2.2.2.2⟩

/-- C4: for an address that is not a multiple of 4096, or below `end`, or at or
above `PHYSTOP`, `kfree` panics with "kfree" in the unchanged state; for a
page-aligned address inside `[end, PHYSTOP)` the panic "kfree" is not raised. -/
theorem kfree_address_check (L : Layout) (s : State) (pa : Nat) :
    ((pa % 4096 ≠ 0 ∨ pa < L.kend ∨ L.PHYSTOP ≤ pa) → kfree L s pa = .panic .kfree s) ∧
      ((pa % 4096 = 0 ∧ L.kend ≤ pa ∧ pa < L.PHYSTOP) →
        ∀ s', kfree L s pa ≠ .panic .kfree s') := by
  constructor
  · intro h
    exact kfree_invalid L s pa h
  · intro h s'
    have hv : ValidFrame L pa := h
    by_cases h1 : s.cow_init ≠ 0 ∧ s.cow_count (cow_index L pa) ≤ 0
    · rw [kfree_nonpositive L s pa hv h1.1 h1.2]
      simp
    · by_cases h2 : 1 < s.cow_count (cow_index L pa)
      · rw [kfree_decrement L s pa hv h2]
        simp
      · rw [kfree_recycle L s pa hv h1 (by omega)]
        simp

theorem kfree_address_check_witness :
    kfree demoLayout (demoState 1) 0x80001001 = .panic .kfree (demoState 1) ∧
      kfree demoLayout (demoState 1) 0x80000000 = .panic .kfree (demoState 1) ∧
      kfree demoLayout (demoState 1) 0x80004000 = .panic .kfree (demoState 1) ∧
      ∀ s', kfree demoLayout (demoState 1) 0x80001000 ≠ .panic .kfree s' :=
  ⟨(kfree_address_check demoLayout (demoState 1) 0x80001001).1 (by decide),
   (kfree_address_check demoLayout (demoState 1) 0x80000000).1 (by decide),
   (kfree_address_check demoLayout (demoState 1) 0x80004000).1 (by decide),
   (kfree_address_check demoLayout (demoState 1) 0x80001000).2 (by decide)⟩

/-! ## Table indices -/

theorem cow_index_valid (L : Layout) (hL : L.WF) (pa : Nat) (hpa : ValidFrame L pa) :
    cow_index L pa = ((pa - L.KERNBASE) / PGSIZE : Nat) := by
  obtain ⟨h1, _, _, h4, _, h6⟩ := hL
  obtain ⟨_, g2, g3⟩ := hpa
  simp only [NFRAMES, PGSIZE] at h6
  norm_num at h4 h6
  have e1 : (pa + 2 ^ 64 - L.KERNBASE) % 2 ^ 64 = pa - L.KERNBASE := by
    norm_num
    omega
  have e2 : (pa - L.KERNBASE) / 4096 % 2 ^ 32 = (pa - L.KERNBASE) / 4096 := by
    norm_num
    omega
  have e3 : (pa - L.KERNBASE) / 4096 < 2 ^ 31 := by
    norm_num
    omega
  simp only [cow_index, toInt32, PGSIZE, e1, e2, e3, if_true]

theorem cow_index_inj (L : Layout) (hL : L.WF) (x y : Nat) (hx : ValidFrame L x)
    (hy : ValidFrame L y) (h : cow_index L x = cow_index L y) : x = y := by
  rw [cow_index_valid L hL x hx, cow_index_valid L hL y hy] at h
  have h' : (x - L.KERNBASE) / PGSIZE = (y - L.KERNBASE) / PGSIZE := by exact_mod_cast h
  obtain ⟨h1, _, _, _, _, _⟩ := hL
  obtain ⟨a1, a2, _⟩ := hx
  obtain ⟨b1, b2, _⟩ := hy
  simp only [PGSIZE] at *
  omega

/-- Two distinct page-aligned addresses: no byte of one page lies in the other. -/
theorem page_disjoint_full (x pa k : Nat) (hx : x % PGSIZE = 0) (hpa : pa % PGSIZE = 0)
    (hne : x ≠ pa) (hk : k < PGSIZE) : x + k < pa ∨ pa + PGSIZE ≤ x + k := by
  simp only [PGSIZE] at *
  omega

/-! ## Copy-on-write resolution -/

theorem mappages_unmapped (room : Bool) (pagetable : PageTable) (va pa perm : Nat) :
    mappages room (Function.update pagetable va none) va pa perm =
      if room then
        some (Function.update (Function.update pagetable va none) va
          (some { pa := pa, flags := perm }))
      else none := by
  simp [mappages, walk]

/-- The run of `cow_kalloc` once the entry is found and the release of the old
frame by `uvmunmap` has returned. -/
theorem cow_kalloc_unfold (L : Layout) (room : Bool) (s s1 : State) (pagetable : PageTable)
    (va : Nat) (pte : Pte) (hw : walk pagetable va = some pte)
    (hf : kfree L s pte.pa = .ok s1) :
    cow_kalloc L room s pagetable va =
      if (kalloc L s1).1 = 0 then
        .ret 0 (kalloc L s1).2 (Function.update pagetable va none)
      else if room then
        .ret (kalloc L s1).1
          { (kalloc L s1).2 with
            mem := memmove (kalloc L s1).2.mem (kalloc L s1).1 pte.pa PGSIZE }
          (Function.update (Function.update pagetable va none) va
            (some { pa := (kalloc L s1).1, flags := andNot pte.flags L.PTE_COW ||| PTE_W }))
      else
        .panic .cow_kalloc_map
          { (kalloc L s1).2 with
            mem := memmove (kalloc L s1).2.mem (kalloc L s1).1 pte.pa PGSIZE }
          (Function.update pagetable va none) := by
  simp only [cow_kalloc, uvmunmap, hw, hf]
  split
  · rfl
  · rw [mappages_unmapped]
    cases room <;> rfl

/-- When the old frame has count 1, `uvmunmap` recycles it, `kalloc` hands the very
same frame back, and the copy is a copy of the frame onto itself after it was
filled with the byte 5. -/
theorem cow_kalloc_sole (L : Layout) (s : State) (pagetable : PageTable) (va : Nat)
    (pte : Pte) (hk : 0 < L.kend) (hw : walk pagetable va = some pte)
    (hpa : ValidFrame L pte.pa) (hc : s.cow_count (cow_index L pte.pa) = 1) :
    ∃ s' pagetable', cow_kalloc L true s pagetable va = .ret pte.pa s' pagetable' ∧
      ∀ i, i < 4096 → s'.mem (pte.pa + i) = 5 := by
  have hn : ¬ (s.cow_init ≠ 0 ∧ s.cow_count (cow_index L pte.pa) ≤ 0) := by omega
  have hf := kfree_recycle L s pte.pa hpa hn (by omega)
  have hne : pte.pa ≠ 0 := by
    obtain ⟨_, h1, _⟩ := hpa
    omega
  rw [cow_kalloc_unfold L true s _ pagetable va pte hw hf]
  simp only [kalloc, hne, ne_eq, not_false_eq_true, if_true, if_false]
  refine ⟨_, _, rfl, ?_⟩
  intro i hi
  have h1 : pte.pa ≤ pte.pa + i ∧ pte.pa + i < pte.pa + PGSIZE := by
    simp only [PGSIZE]; omega
  simp only [memmove, h1, and_self, if_true, Nat.add_sub_cancel_left]
  exact memset_inside _ _ _ _ _ h1.1 h1.2

/-- C6 (evaluation at the failing input): virtual page `0x4000` is mapped with the
COW marker to frame `0x80001000`, whose count is 1 and whose bytes are all 7, and
`mappages` has room for the new mapping.  `cow_kalloc` returns that same frame
`0x80001000`, and its bytes are all 5: the old contents were released and
overwritten before the copy read them. -/
theorem cow_kalloc_copy_after_release :
    ∃ s' pagetable',
      cow_kalloc demoLayout true (demoState 1) demoPageTable 0x4000
        = .ret 0x80001000 s' pagetable' ∧
      walk demoPageTable 0x4000 = some { pa := 0x80001000, flags := 275 } ∧
      (demoState 1).cow_count (cow_index demoLayout 0x80001000) = 1 ∧
      (∀ i, i < 4096 → (demoState 1).mem (0x80001000 + i) = 7) ∧
      (∀ i, i < 4096 → s'.mem (0x80001000 + i) = 5) := by
  obtain ⟨s', pt', h1, h2⟩ := cow_kalloc_sole demoLayout (demoState 1) demoPageTable 0x4000
    { pa := 0x80001000, flags := 275 } (by decide) (by decide) (by decide) (by decide)
  refine ⟨s', pt', h1, by decide, by decide, ?_, h2⟩
  intro i hi
  have h : 0x80001000 ≤ 0x80001000 + i ∧ 0x80001000 + i < 0x80002000 := by omega
  simp only [demoState, h, and_self, if_true]

/-- C7 (counterexample): virtual page `0x4000` is mapped with the COW marker to the
valid frame `0x80001000` of count 2 and the free list is `[0x80002000]`, but
`mappages` finds no resources for the new mapping.  `cow_kalloc` does not end
with `0x4000` mapped to a new frame: it panics with "cow_kalloc: new pte should
be properly mapped", and `0x4000` is unmapped. -/
theorem cow_kalloc_map_failure :
    walk demoPageTable 0x4000 = some { pa := 0x80001000, flags := 275 } ∧
      ValidFrame demoLayout 0x80001000 ∧
      (demoState 2).cow_count (cow_index demoLayout 0x80001000) = 2 ∧
      FreeListInv demoLayout (demoState 2) [0x80002000] ∧
      (cow_kalloc demoLayout false (demoState 2) demoPageTable 0x4000).returned = none ∧
      (cow_kalloc demoLayout false (demoState 2) demoPageTable 0x4000).panicked
        = some .cow_kalloc_map ∧
      walk (cow_kalloc demoLayout false (demoState 2) demoPageTable 0x4000).pagetable 0x4000
        = none := by
  decide

/-- C7 (amended): virtual address `va` is mapped to a valid old frame whose count
`c` is at least 2, the free list `x :: xs` is not empty, and `mappages` has room
for the new mapping.  Then `cow_kalloc` returns the head `x` of the free list,
which is not the old frame; afterwards `va` is mapped to `x`, the count of `x` is
1, the bytes of `x` are those the old frame had before the call, the bytes of the
old frame are unchanged and its count is `c - 1`. -/
theorem cow_kalloc_shared (L : Layout) (s : State) (pagetable : PageTable) (va : Nat)
    (pte : Pte) (x : Nat) (xs : List Nat) (hL : L.WF) (hl : FreeListInv L s (x :: xs))
    (hw : walk pagetable va = some pte) (hpa : ValidFrame L pte.pa)
    (hc : 2 ≤ s.cow_count (cow_index L pte.pa)) :
    ∃ s' pagetable', cow_kalloc L true s pagetable va = .ret x s' pagetable' ∧
      x ≠ pte.pa ∧ x ≠ 0 ∧
      (walk pagetable' va).map Pte.pa = some x ∧
      s'.cow_count (cow_index L x) = 1 ∧
      (∀ i, i < 4096 → s'.mem (x + i) = s.mem (pte.pa + i)) ∧
      (∀ i, i < 4096 → s'.mem (pte.pa + i) = s.mem (pte.pa + i)) ∧
      s'.cow_count (cow_index L pte.pa) = s.cow_count (cow_index L pte.pa) - 1 := by
  obtain ⟨hlist, _, hval⟩ := hl
  have hxv := hval x (List.mem_cons_self _ _)
  have hx : s.freelist = x := hlist.1
  have hx0 : x ≠ 0 := hlist.2.1
  have hne : x ≠ pte.pa := by
    intro e
    have := hxv.2
    rw [e] at this
    omega
  have hidx : cow_index L pte.pa ≠ cow_index L x :=
    fun e => hne (cow_index_inj L hL _ _ hpa hxv.1 e).symm
  have hf := kfree_decrement L s pte.pa hpa (by omega)
  rw [cow_kalloc_unfold L true s _ pagetable va pte hw hf]
  simp only [kalloc, hx, hx0, ne_eq, not_false_eq_true, if_true, if_false]
  refine ⟨_, _, rfl, hne, trivial, ?_, ?_, ?_, ?_, ?_⟩
  · simp [walk]
  · simp
  · intro i hi
    have h1 : x ≤ x + i ∧ x + i < x + PGSIZE := by simp only [PGSIZE]; omega
    simp only [memmove, h1, and_self, if_true, Nat.add_sub_cancel_left]
    exact memset_outside _ _ _ _ _
      (page_disjoint_full pte.pa x i hpa.1 hxv.1.1 (Ne.symm hne) (by simp only [PGSIZE]; omega))
  · intro i hi
    have hd := page_disjoint_full pte.pa x i hpa.1 hxv.1.1 (Ne.symm hne)
      (by simp only [PGSIZE]; omega)
    have h1 : ¬ (x ≤ pte.pa + i ∧ pte.pa + i < x + PGSIZE) := by omega
    simp only [memmove, h1, if_false]
    exact memset_outside _ _ _ _ _ hd
  · simp [Function.update_noteq hidx]

theorem cow_kalloc_shared_witness :
    ∃ s' pagetable',
      cow_kalloc demoLayout true (demoState 2) demoPageTable 0x4000
        = .ret 0x80002000 s' pagetable' ∧
      0x80002000 ≠ (0x80001000 : Nat) ∧ 0x80002000 ≠ 0 ∧
      (walk pagetable' 0x4000).map Pte.pa = some 0x80002000 ∧
      s'.cow_count (cow_index demoLayout 0x80002000) = 1 ∧
      (∀ i, i < 4096 → s'.mem (0x80002000 + i) = (demoState 2).mem (0x80001000 + i)) ∧
      (∀ i, i < 4096 → s'.mem (0x80001000 + i) = (demoState 2).mem (0x80001000 + i)) ∧
      s'.cow_count (cow_index demoLayout 0x80001000)
        = (demoState 2).cow_count (cow_index demoLayout 0x80001000) - 1 :=
  cow_kalloc_shared demoLayout (demoState 2) demoPageTable 0x4000
    { pa := 0x80001000, flags := 275 } 0x80002000 [] (by decide) (by decide) (by decide)
    (by decide) (by decide)

/-! ## Preservation of the free-list invariant -/

theorem FreeListInv_recycle (L : Layout) (hL : L.WF) (s : State) (pa : Nat) (l : List Nat)
    (hl : FreeListInv L s l) (hpa : ValidFrame L pa) (hnot : pa ∉ l) :
    FreeListInv L { s with
      cow_count := Function.update s.cow_count (cow_index L pa) 0
      mem := store64 (memset s.mem pa 1 PGSIZE) pa s.freelist
      freelist := pa } (pa :: l) := by
  have hnot' : ∀ x ∈ l, x % PGSIZE = 0 ∧ x ≠ pa :=
    fun x hx => ⟨(hl.2.2 x hx).1.1, fun e => hnot (e ▸ hx)⟩
  refine ⟨?_, List.nodup_cons.mpr ⟨hnot, hl.2.1⟩, ?_⟩
  · exact IsFreeList_push s.mem s.freelist pa l hl.1 (FreeListInv_head_lt L hL s l hl) hpa.1
      (ValidFrame_ne_zero L hL pa hpa) hnot'
  · intro x hx
    rcases List.mem_cons.mp hx with e | hx'
    · subst e
      exact ⟨hpa, by simp⟩
    · refine ⟨(hl.2.2 x hx').1, ?_⟩
      show Function.update s.cow_count (cow_index L pa) 0 (cow_index L x) = 0
      by_cases e : cow_index L x = cow_index L pa
      · rw [e]; simp
      · rw [Function.update_noteq e]; exact (hl.2.2 x hx').2

theorem FreeListInv_update (L : Layout) (hL : L.WF) (s : State) (pa : Nat) (v : Int)
    (l : List Nat) (hl : FreeListInv L s l) (hpa : ValidFrame L pa) (hnot : pa ∉ l) :
    FreeListInv L { s with cow_count := Function.update s.cow_count (cow_index L pa) v } l := by
  refine ⟨hl.1, hl.2.1, ?_⟩
  intro x hx
  refine ⟨(hl.2.2 x hx).1, ?_⟩
  have hne : cow_index L x ≠ cow_index L pa := by
    intro e
    have := cow_index_inj L hL x pa (hl.2.2 x hx).1 hpa e
    exact hnot (this ▸ hx)
  show Function.update s.cow_count (cow_index L pa) v (cow_index L x) = 0
  rw [Function.update_noteq hne]
  exact (hl.2.2 x hx).2

theorem kalloc_cons (L : Layout) (s : State) (x : Nat) (xs : List Nat)
    (hl : IsFreeList s.mem s.freelist (x :: xs)) :
    kalloc L s = (x, { s with
      freelist := load64 s.mem x
      mem := memset s.mem x 5 PGSIZE
      cow_count := Function.update s.cow_count (cow_index L x) 1 }) := by
  have hx : s.freelist = x := hl.1
  have hx0 : x ≠ 0 := hl.2.1
  simp [kalloc, hx, hx0]

theorem kalloc_nil (L : Layout) (s : State) (hl : IsFreeList s.mem s.freelist []) :
    kalloc L s = (0, s) := by
  have hx : s.freelist = 0 := hl
  simp [kalloc, hx]

theorem FreeListInv_kalloc (L : Layout) (hL : L.WF) (s : State) (x : Nat) (xs : List Nat)
    (hl : FreeListInv L s (x :: xs)) : FreeListInv L (kalloc L s).2 xs := by
  obtain ⟨hlist, hnd, hval⟩ := hl
  have hxv := hval x (List.mem_cons_self _ _)
  have hnd' := List.nodup_cons.mp hnd
  rw [kalloc_cons L s x xs hlist]
  refine ⟨?_, hnd'.2, ?_⟩
  · have hx : s.freelist = x := hlist.1
    rw [hx] at hlist
    refine IsFreeList_pop s.mem x xs hlist hxv.1.1 ?_
    intro y hy
    exact ⟨(hval y (List.mem_cons_of_mem _ hy)).1.1, fun e => hnd'.1 (e ▸ hy)⟩
  · intro y hy
    have hyv := hval y (List.mem_cons_of_mem _ hy)
    refine ⟨hyv.1, ?_⟩
    have hne : cow_index L y ≠ cow_index L x := by
      intro e
      have := cow_index_inj L hL y x hyv.1 hxv.1 e
      exact hnd'.1 (this ▸ hy)
    show Function.update s.cow_count (cow_index L x) 1 (cow_index L y) = 0
    rw [Function.update_noteq hne]
    exact hyv.2

/-! ## The loop of freerange -/

theorem mem_pushed (n : Nat) : ∀ (p : Nat) (l : List Nat) (x : Nat),
    x ∈ pushed p n l ↔ x ∈ l ∨ ∃ i, i < n ∧ x = p + i * PGSIZE := by
  induction n with
  | zero => intro p l x; simp [pushed]
  | succ n ih =>
    intro p l x
    rw [pushed, ih]
    constructor
    · rintro (h | ⟨i, hi, e⟩)
      · rcases List.mem_cons.mp h with e | h'
        · exact Or.inr ⟨0, by omega, by omega⟩
        · exact Or.inl h'
      · exact Or.inr ⟨i + 1, by omega, by rw [e]; ring⟩
    · rintro (h | ⟨i, hi, e⟩)
      · exact Or.inl (List.mem_cons_of_mem _ h)
      · cases i with
        | zero => exact Or.inl (by rw [e]; simp)
        | succ j => exact Or.inr ⟨j, by omega, by rw [e]; ring⟩

theorem length_pushed (n : Nat) : ∀ (p : Nat) (l : List Nat),
    (pushed p n l).length = n + l.length := by
  induction n with
  | zero => intro p l; simp [pushed]
  | succ n ih =>
    intro p l
    rw [pushed, ih]
    simp only [List.length_cons]
    omega

theorem freerange_loop_spec (L : Layout) (hL : L.WF) (pa_end : Nat)
    (hend : pa_end ≤ L.PHYSTOP) (n : Nat) :
    ∀ (p : Nat) (s : State) (l : List Nat), p % PGSIZE = 0 → L.kend ≤ p →
      (pa_end - p) / PGSIZE = n → s.cow_init = 0 → (∀ i, s.cow_count i = 0) →
      FreeListInv L s l → (∀ x ∈ l, x < p) →
      ∃ s', freerange_loop L pa_end p s = .ok s' ∧ s'.cow_init = 0 ∧
        (∀ i, s'.cow_count i = 0) ∧ FreeListInv L s' (pushed p n l) := by
  induction n with
  | zero =>
    intro p s l _ _ hn hinit hcnt hl _
    have hstop : ¬ (p + PGSIZE ≤ pa_end) := by
      simp only [PGSIZE] at *
      omega
    rw [freerange_loop, if_neg hstop]
    exact ⟨s, rfl, hinit, hcnt, hl⟩
  | succ n ih =>
    intro p s l hp hk hn hinit hcnt hl hlt
    have hgo : p + PGSIZE ≤ pa_end := by
      simp only [PGSIZE] at *
      omega
    have hpv : ValidFrame L p := ⟨hp, hk, by simp only [PGSIZE] at hgo; omega⟩
    have hno : ¬ (s.cow_init ≠ 0 ∧ s.cow_count (cow_index L p) ≤ 0) := by
      rw [hinit]; simp
    have hf := kfree_recycle L s p hpv hno (by rw [hcnt]; decide)
    have hnot : p ∉ l := fun h => by have := hlt p h; omega
    rw [freerange_loop, if_pos hgo, hf]
    refine ih (p + PGSIZE) _ (p :: l) ?_ ?_ ?_ hinit ?_
      (FreeListInv_recycle L hL s p l hl hpv hnot) ?_
    · simp only [PGSIZE] at *; omega
    · omega
    · simp only [PGSIZE] at *; omega
    · intro i
      show Function.update s.cow_count (cow_index L p) 0 i = 0
      by_cases e : i = cow_index L p
      · rw [e]; simp
      · rw [Function.update_noteq e]; exact hcnt i
    · intro x hx
      rcases List.mem_cons.mp hx with e | h'
      · simp only [PGSIZE]; omega
      · have := hlt x h'; omega

/-! ## The invariant holds in every reachable state -/

/-- Below `2 ^ 64 - PGSIZE` the sum in `PGROUNDUP` does not wrap. -/
theorem PGROUNDUP_spec (a : Nat) (h : a + PGSIZE ≤ 2 ^ 64) :
    PGROUNDUP a % PGSIZE = 0 ∧ a ≤ PGROUNDUP a ∧ PGROUNDUP a < a + PGSIZE := by
  simp only [PGROUNDUP, PGSIZE] at *
  norm_num at h ⊢
  omega

/-- Addresses up to `PHYSTOP` are at least a page below `2 ^ 64`. -/
theorem WF_no_wrap (L : Layout) (hL : L.WF) (a : Nat) (h : a ≤ L.PHYSTOP) :
    a + PGSIZE ≤ 2 ^ 64 := by
  obtain ⟨_, _, _, h4, h5, _⟩ := hL
  simp only [PGSIZE] at *
  norm_num at h4 ⊢
  omega

theorem freerange_boot (L : Layout) (hL : L.WF) (mem : Mem) (pa_start pa_end : Nat)
    (h0 : pa_start ≤ pa_end) (h1 : L.kend ≤ pa_start) (h2 : pa_end ≤ L.PHYSTOP) :
    ∃ s, freerange L (boot mem) pa_start pa_end = .ok s ∧ s.cow_init = 0 ∧
      (∀ i, s.cow_count i = 0) ∧
      FreeListInv L s
        (pushed (PGROUNDUP pa_start) ((pa_end - PGROUNDUP pa_start) / PGSIZE) []) := by
  have hr := PGROUNDUP_spec pa_start (WF_no_wrap L hL pa_start (by omega))
  refine freerange_loop_spec L hL pa_end h2 _ (PGROUNDUP pa_start) (boot mem) [] hr.1
    (by omega) rfl rfl (fun _ => rfl) ?_ ?_
  · exact ⟨rfl, List.nodup_nil, by simp⟩
  · simp

theorem kinit_boot (L : Layout) (hL : L.WF) (mem : Mem) :
    ∃ s, kinit L (boot mem) = .ok s ∧
      Inv L s (pushed (PGROUNDUP L.kend) ((L.PHYSTOP - PGROUNDUP L.kend) / PGSIZE) []) := by
  obtain ⟨s, hs, _, _, hl⟩ :=
    freerange_boot L hL mem L.kend L.PHYSTOP hL.2.2.1 (le_refl _) (le_refl _)
  refine ⟨{ s with cow_init := 1 }, by simp only [kinit, hs], ⟨hl.1, hl.2.1, hl.2.2⟩, ?_,
    rfl⟩
  intro pa hpa hnot
  exfalso
  apply hnot
  rw [mem_pushed]
  right
  have hr := PGROUNDUP_spec L.kend (WF_no_wrap L hL L.kend hL.2.2.1)
  obtain ⟨_, _, _, _, h5, _⟩ := hL
  obtain ⟨a1, a2, a3⟩ := hpa
  refine ⟨(pa - PGROUNDUP L.kend) / PGSIZE, ?_, ?_⟩
  · simp only [PGSIZE] at *
    omega
  · simp only [PGSIZE] at *
    omega

theorem kinit_state_eq (L : Layout) (hL : L.WF) (mem : Mem) :
    kinit L (boot mem) = .ok (kinit L (boot mem)).state := by
  obtain ⟨s, hs, _⟩ := kinit_boot L hL mem
  rw [hs]
  rfl

/-- A call of `kfree` that returns took one of the two non-panicking paths. -/
theorem kfree_ok_cases (L : Layout) (s s' : State) (pa : Nat) (h : kfree L s pa = .ok s') :
    ValidFrame L pa ∧ ¬ (s.cow_init ≠ 0 ∧ s.cow_count (cow_index L pa) ≤ 0) ∧
      ((1 < s.cow_count (cow_index L pa) ∧ s' = { s with
          cow_count := Function.update s.cow_count (cow_index L pa)
            (s.cow_count (cow_index L pa) - 1) }) ∨
        (s.cow_count (cow_index L pa) ≤ 1 ∧ s' = { s with
          cow_count := Function.update s.cow_count (cow_index L pa) 0
          mem := store64 (memset s.mem pa 1 PGSIZE) pa s.freelist
          freelist := pa })) := by
  by_cases hv : pa % PGSIZE ≠ 0 ∨ pa < L.kend ∨ pa ≥ L.PHYSTOP
  · rw [kfree_invalid L s pa hv] at h
    cases h
  · have hpa : ValidFrame L pa := by
      unfold ValidFrame
      omega
    by_cases h1 : s.cow_init ≠ 0 ∧ s.cow_count (cow_index L pa) ≤ 0
    · rw [kfree_nonpositive L s pa hpa h1.1 h1.2] at h
      cases h
    · by_cases h2 : 1 < s.cow_count (cow_index L pa)
      · rw [kfree_decrement L s pa hpa h2] at h
        cases h
        exact ⟨hpa, h1, Or.inl ⟨h2, rfl⟩⟩
      · rw [kfree_recycle L s pa hpa h1 (by omega)] at h
        cases h
        exact ⟨hpa, h1, Or.inr ⟨by omega, rfl⟩⟩

theorem Inv_kalloc (L : Layout) (hL : L.WF) (s : State) (l : List Nat) (h : Inv L s l) :
    Inv L (kalloc L s).2 l.tail := by
  cases l with
  | nil =>
    rw [kalloc_nil L s h.1.1]
    exact h
  | cons x xs =>
    refine ⟨FreeListInv_kalloc L hL s x xs h.1, ?_, ?_⟩
    · intro pa hpa hnot
      rw [kalloc_cons L s x xs h.1.1]
      show 1 ≤ Function.update s.cow_count (cow_index L x) 1 (cow_index L pa)
      by_cases e : cow_index L pa = cow_index L x
      · rw [e]; simp
      · rw [Function.update_noteq e]
        refine h.2.1 pa hpa ?_
        intro hin
        rcases List.mem_cons.mp hin with e' | h'
        · exact e (by rw [e'])
        · exact hnot h'
    · rw [kalloc_cons L s x xs h.1.1]
      exact h.2.2

theorem Inv_kfree (L : Layout) (hL : L.WF) (s s' : State) (pa : Nat) (l : List Nat)
    (h : Inv L s l) (hf : kfree L s pa = .ok s') :
    (1 < s.cow_count (cow_index L pa) ∧ Inv L s' l) ∨
      (s.cow_count (cow_index L pa) = 1 ∧ Inv L s' (pa :: l)) := by
  obtain ⟨hpa, hno, hcase⟩ := kfree_ok_cases L s s' pa hf
  have hpos : 0 < s.cow_count (cow_index L pa) := by
    have := h.2.2
    by_contra hc
    exact hno ⟨by omega, by omega⟩
  have hnot : pa ∉ l := by
    intro hin
    have := (h.1.2.2 pa hin).2
    omega
  rcases hcase with ⟨hc, e⟩ | ⟨hc, e⟩
  · left
    subst e
    refine ⟨hc, FreeListInv_update L hL s pa _ l h.1 hpa hnot, ?_, h.2.2⟩
    intro q hq hqn
    show 1 ≤ Function.update s.cow_count (cow_index L pa) _ (cow_index L q)
    by_cases e : cow_index L q = cow_index L pa
    · rw [e]; simp; omega
    · rw [Function.update_noteq e]; exact h.2.1 q hq hqn
  · right
    subst e
    refine ⟨by omega, FreeListInv_recycle L hL s pa l h.1 hpa hnot, ?_, h.2.2⟩
    intro q hq hqn
    have hqne : q ≠ pa := fun e => hqn (by rw [e]; exact List.mem_cons_self _ _)
    have hidx : cow_index L q ≠ cow_index L pa :=
      fun e => hqne (cow_index_inj L hL q pa hq hpa e)
    show 1 ≤ Function.update s.cow_count (cow_index L pa) 0 (cow_index L q)
    rw [Function.update_noteq hidx]
    exact h.2.1 q hq (fun hin => hqn (List.mem_cons_of_mem _ hin))

theorem Inv_increment (L : Layout) (hL : L.WF) (s : State) (pa : Nat) (l : List Nat)
    (h : Inv L s l) (hpa : ValidFrame L pa) (hnot : ¬ OnFreeList s pa) :
    Inv L (cow_increment L s pa) l := by
  have hnot' : pa ∉ l := fun hin => hnot ⟨l, h.1.1, hin⟩
  refine ⟨FreeListInv_update L hL s pa _ l h.1 hpa hnot', ?_, h.2.2⟩
  intro q hq hqn
  show 1 ≤ Function.update s.cow_count (cow_index L pa) _ (cow_index L q)
  by_cases e : cow_index L q = cow_index L pa
  · rw [e]
    simp
    have := h.2.1 pa hpa hnot'
    omega
  · rw [Function.update_noteq e]; exact h.2.1 q hq hqn

theorem Reachable_Inv (L : Layout) (hL : L.WF) (s : State) (hr : Reachable L s) :
    ∃ l, Inv L s l := by
  induction hr with
  | init mem s h =>
    obtain ⟨s0, hs0, hinv⟩ := kinit_boot L hL mem
    rw [hs0] at h
    cases h
    exact ⟨_, hinv⟩
  | alloc s _ ih =>
    obtain ⟨l, hl⟩ := ih
    exact ⟨_, Inv_kalloc L hL s l hl⟩
  | free s pa s' _ hf ih =>
    obtain ⟨l, hl⟩ := ih
    rcases Inv_kfree L hL s s' pa l hl hf with ⟨_, h⟩ | ⟨_, h⟩
    · exact ⟨_, h⟩
    · exact ⟨_, h⟩
  | incr s pa _ hpa hnot _ ih =>
    obtain ⟨l, hl⟩ := ih
    exact ⟨_, Inv_increment L hL s pa l hl hpa hnot⟩

/-- C8: in every state reachable from `kinit` by `kalloc`, returning `kfree` and
increments of allocated frames, the free list is a list `l` without repetition,
every frame on it is a valid frame with count 0, and every valid frame that is
not on it has a count of at least 1; and a `kfree` that changes the head of the
free list pushes exactly the frame whose count it takes from 1 to 0. -/
theorem reachable_invariant (L : Layout) (s : State) (hL : L.WF) (hr : Reachable L s) :
    (∃ l, IsFreeList s.mem s.freelist l ∧ l.Nodup ∧
      (∀ x ∈ l, ValidFrame L x ∧ s.cow_count (cow_index L x) = 0) ∧
      (∀ pa, ValidFrame L pa → pa ∉ l → 1 ≤ s.cow_count (cow_index L pa))) ∧
    (∀ pa s', kfree L s pa = .ok s' → s'.freelist ≠ s.freelist →
      s.cow_count (cow_index L pa) = 1 ∧ s'.cow_count (cow_index L pa) = 0 ∧
        s'.freelist = pa) := by
  obtain ⟨l, hl⟩ := Reachable_Inv L hL s hr
  refine ⟨⟨l, hl.1.1, hl.1.2.1, hl.1.2.2, hl.2.1⟩, ?_⟩
  intro pa s' hf hne
  rcases Inv_kfree L hL s s' pa l hl hf with ⟨hc, _⟩ | ⟨hc, hinv⟩
  · exfalso
    obtain ⟨_, _, hcase⟩ := kfree_ok_cases L s s' pa hf
    rcases hcase with ⟨_, e⟩ | ⟨h1, _⟩
    · exact hne (by rw [e])
    · omega
  · have hh : s'.freelist = pa := hinv.1.1.1
    exact ⟨hc, (hinv.1.2.2 pa (List.mem_cons_self _ _)).2, hh⟩

theorem reachable_invariant_witness :
    (∃ l, IsFreeList (kalloc demoLayout demoBooted).2.mem
        (kalloc demoLayout demoBooted).2.freelist l ∧ l.Nodup ∧
      (∀ x ∈ l, ValidFrame demoLayout x ∧
        (kalloc demoLayout demoBooted).2.cow_count (cow_index demoLayout x) = 0) ∧
      (∀ pa, ValidFrame demoLayout pa → pa ∉ l →
        1 ≤ (kalloc demoLayout demoBooted).2.cow_count (cow_index demoLayout pa))) ∧
    (∀ pa s', kfree demoLayout (kalloc demoLayout demoBooted).2 pa = .ok s' →
      s'.freelist ≠ (kalloc demoLayout demoBooted).2.freelist →
      (kalloc demoLayout demoBooted).2.cow_count (cow_index demoLayout pa) = 1 ∧
        s'.cow_count (cow_index demoLayout pa) = 0 ∧ s'.freelist = pa) :=
  reachable_invariant demoLayout (kalloc demoLayout demoBooted).2 (by decide)
    (Reachable.alloc demoBooted
      (Reachable.init (fun _ => 0) demoBooted (kinit_state_eq demoLayout (by decide) _)))

/-! ## Counts are never negative -/

theorem nonneg_kfree (L : Layout) (s s' : State) (pa : Nat) (h : ∀ i, 0 ≤ s.cow_count i)
    (hf : kfree L s pa = .ok s') : ∀ i, 0 ≤ s'.cow_count i := by
  obtain ⟨_, _, hcase⟩ := kfree_ok_cases L s s' pa hf
  intro i
  rcases hcase with ⟨hc, e⟩ | ⟨_, e⟩
  · subst e
    show 0 ≤ Function.update s.cow_count (cow_index L pa) _ i
    by_cases e : i = cow_index L pa
    · rw [e]; simp; omega
    · rw [Function.update_noteq e]; exact h i
  · subst e
    show 0 ≤ Function.update s.cow_count (cow_index L pa) 0 i
    by_cases e : i = cow_index L pa
    · rw [e]; simp
    · rw [Function.update_noteq e]; exact h i

theorem nonneg_kalloc (L : Layout) (s : State) (h : ∀ i, 0 ≤ s.cow_count i) :
    ∀ i, 0 ≤ (kalloc L s).2.cow_count i := by
  intro i
  unfold kalloc
  by_cases h0 : s.freelist = 0
  · simp only [h0, ne_eq, not_true_eq_false, if_false]
    exact h i
  · simp only [h0, ne_eq, not_false_eq_true, if_true]
    by_cases e : i = cow_index L s.freelist
    · rw [e]; simp
    · rw [Function.update_noteq e]; exact h i

theorem nonneg_freerange_loop (L : Layout) (pa_end : Nat) (n : Nat) :
    ∀ (p : Nat) (s s' : State), pa_end - p ≤ n → (∀ i, 0 ≤ s.cow_count i) →
      freerange_loop L pa_end p s = .ok s' → ∀ i, 0 ≤ s'.cow_count i := by
  induction n with
  | zero =>
    intro p s s' hn h hf
    have hstop : ¬ (p + PGSIZE ≤ pa_end) := by simp only [PGSIZE]; omega
    rw [freerange_loop, if_neg hstop] at hf
    cases hf
    exact h
  | succ n ih =>
    intro p s s' hn h hf
    by_cases hgo : p + PGSIZE ≤ pa_end
    · rw [freerange_loop, if_pos hgo] at hf
      cases hk : kfree L s p with
      | ok s1 =>
        rw [hk] at hf
        exact ih (p + PGSIZE) s1 s' (by simp only [PGSIZE]; omega) (nonneg_kfree L s s1 p h hk) hf
      | panic m s1 =>
        rw [hk] at hf
        cases hf
    · rw [freerange_loop, if_neg hgo] at hf
      cases hf
      exact h

theorem nonneg_reachable (L : Layout) (s : State) (hr : Reachable L s) :
    ∀ i, 0 ≤ s.cow_count i := by
  induction hr with
  | init mem s h =>
    unfold kinit freerange at h
    cases hl : freerange_loop L L.PHYSTOP (PGROUNDUP L.kend) (boot mem) with
    | ok s1 =>
      rw [hl] at h
      cases h
      exact nonneg_freerange_loop L L.PHYSTOP _ _ (boot mem) s1 (le_refl _)
        (fun _ => le_refl _) hl
    | panic m s1 =>
      rw [hl] at h
      cases h
  | alloc s _ ih => exact nonneg_kalloc L s ih
  | free s pa s' _ hf ih => exact nonneg_kfree L s s' pa ih hf
  | incr s pa _ _ _ _ ih =>
    intro i
    show 0 ≤ Function.update s.cow_count (cow_index L pa) _ i
    by_cases e : i = cow_index L pa
    · rw [e]
      simp
      have := ih (cow_index L pa)
      omega
    · rw [Function.update_noteq e]; exact ih i

/-- C9: in every state reachable from the zero-initialized table by `kinit`,
`kalloc` and returning `kfree` (and increments), every entry of `cow_count` is at
least 0; the table after a further `kalloc` or returning `kfree` has no negative
entry either, and such a `kfree` leaves in the frame's entry either the old count
minus 1, the old count being greater than 1, or 0. -/
theorem counts_nonneg (L : Layout) (s : State) (hr : Reachable L s) :
    (∀ i, 0 ≤ s.cow_count i) ∧ (∀ i, 0 ≤ (kalloc L s).2.cow_count i) ∧
      (∀ pa s', kfree L s pa = .ok s' →
        (∀ i, 0 ≤ s'.cow_count i) ∧
        ((1 < s.cow_count (cow_index L pa) ∧
            s'.cow_count (cow_index L pa) = s.cow_count (cow_index L pa) - 1) ∨
          s'.cow_count (cow_index L pa) = 0)) := by
  have h := nonneg_reachable L s hr
  refine ⟨h, nonneg_kalloc L s h, ?_⟩
  intro pa s' hf
  refine ⟨nonneg_kfree L s s' pa h hf, ?_⟩
  obtain ⟨_, _, hcase⟩ := kfree_ok_cases L s s' pa hf
  rcases hcase with ⟨hc, e⟩ | ⟨_, e⟩
  · left
    subst e
    exact ⟨hc, by simp⟩
  · right
    subst e
    simp

theorem counts_nonneg_witness :
    (∀ i, 0 ≤ (kalloc demoLayout demoBooted).2.cow_count i) ∧
      (∀ i, 0 ≤ (kalloc demoLayout (kalloc demoLayout demoBooted).2).2.cow_count i) ∧
      (∀ pa s', kfree demoLayout (kalloc demoLayout demoBooted).2 pa = .ok s' →
        (∀ i, 0 ≤ s'.cow_count i) ∧
        ((1 < (kalloc demoLayout demoBooted).2.cow_count (cow_index demoLayout pa) ∧
            s'.cow_count (cow_index demoLayout pa)
              = (kalloc demoLayout demoBooted).2.cow_count (cow_index demoLayout pa) - 1) ∨
          s'.cow_count (cow_index demoLayout pa) = 0)) :=
  counts_nonneg demoLayout (kalloc demoLayout demoBooted).2
    (Reachable.alloc demoBooted
      (Reachable.init (fun _ => 0) demoBooted (kinit_state_eq demoLayout (by decide) _)))

/-! ## Initialization followed by allocation until the pool is empty -/

/-- As many calls of `kalloc` as the free list is long return its frames in order,
and the next call returns 0. -/
theorem kalloc_n_drain (L : Layout) (hL : L.WF) (l : List Nat) :
    ∀ s, FreeListInv L s l →
      (kalloc_n L l.length s).1 = l ∧ (kalloc L (kalloc_n L l.length s).2).1 = 0 := by
  induction l with
  | nil =>
    intro s hl
    simp only [List.length_nil, kalloc_n, true_and]
    rw [kalloc_nil L s hl.1]
  | cons x xs ih =>
    intro s hl
    have h := ih (kalloc L s).2 (FreeListInv_kalloc L hL s x xs hl)
    have hx : (kalloc L s).1 = x := by rw [kalloc_cons L s x xs hl.1]
    simp only [List.length_cons, kalloc_n]
    exact ⟨by rw [hx, h.1], h.2⟩

/-- C10: `freerange` over a range `[pa_start, pa_end)`, `pa_start ≤ pa_end`, inside
`[end, PHYSTOP]`, run at boot, returns; with
`K = (pa_end - PGROUNDUP(pa_start)) / 4096` the free list then holds exactly the
`K` frames `PGROUNDUP(pa_start) + i * 4096`, `i < K`, each once and with count 0
(for `kinit` the range is `[end, PHYSTOP)` and `cow_init` becomes 1).  The next
`K` calls of `kalloc` return `K` pairwise distinct nonzero page-aligned addresses
inside the range, and the call after them returns 0. -/
theorem freerange_then_kalloc (L : Layout) (mem : Mem) (pa_start pa_end : Nat) (hL : L.WF)
    (h0 : pa_start ≤ pa_end) (h1 : L.kend ≤ pa_start) (h2 : pa_end ≤ L.PHYSTOP) :
    ∃ s l, freerange L (boot mem) pa_start pa_end = .ok s ∧
      (pa_start = L.kend → pa_end = L.PHYSTOP →
        kinit L (boot mem) = .ok { s with cow_init := 1 }) ∧
      IsFreeList s.mem s.freelist l ∧
      l.length = (pa_end - PGROUNDUP pa_start) / 4096 ∧ l.Nodup ∧
      (∀ x, x ∈ l ↔ ∃ i, i < (pa_end - PGROUNDUP pa_start) / 4096 ∧
        x = PGROUNDUP pa_start + i * 4096) ∧
      (∀ x ∈ l, s.cow_count (cow_index L x) = 0) ∧
      ∀ v : Int,
        (kalloc_n L ((pa_end - PGROUNDUP pa_start) / 4096) { s with cow_init := v }).1 = l ∧
        (kalloc_n L ((pa_end - PGROUNDUP pa_start) / 4096)
          { s with cow_init := v }).1.length = (pa_end - PGROUNDUP pa_start) / 4096 ∧
        (kalloc_n L ((pa_end - PGROUNDUP pa_start) / 4096) { s with cow_init := v }).1.Nodup ∧
        (∀ x ∈ (kalloc_n L ((pa_end - PGROUNDUP pa_start) / 4096)
            { s with cow_init := v }).1,
          x ≠ 0 ∧ x % 4096 = 0 ∧ pa_start ≤ x ∧ x + 4096 ≤ pa_end) ∧
        (kalloc L (kalloc_n L ((pa_end - PGROUNDUP pa_start) / 4096)
          { s with cow_init := v }).2).1 = 0 := by
  obtain ⟨s, hs, _, _, hl⟩ := freerange_boot L hL mem pa_start pa_end h0 h1 h2
  have hlen := length_pushed ((pa_end - PGROUNDUP pa_start) / PGSIZE) (PGROUNDUP pa_start) []
  have hmem := mem_pushed ((pa_end - PGROUNDUP pa_start) / PGSIZE) (PGROUNDUP pa_start) []
  have hK : (pa_end - PGROUNDUP pa_start) / 4096 = (pa_end - PGROUNDUP pa_start) / PGSIZE := rfl
  simp only [List.length_nil, Nat.add_zero] at hlen
  simp only [List.not_mem_nil, false_or] at hmem
  rw [hK]
  refine ⟨s, _, hs, ?_, hl.1, hlen, hl.2.1, hmem, fun x hx => (hl.2.2 x hx).2, ?_⟩
  · intro e1 e2
    subst e1 e2
    simp only [kinit, hs]
  · intro v
    have hv : FreeListInv L { s with cow_init := v }
        (pushed (PGROUNDUP pa_start) ((pa_end - PGROUNDUP pa_start) / PGSIZE) []) :=
      ⟨hl.1, hl.2.1, hl.2.2⟩
    have hd := kalloc_n_drain L hL _ _ hv
    rw [hlen] at hd
    rw [hd.1]
    refine ⟨rfl, hlen, hl.2.1, ?_, hd.2⟩
    intro x hx
    have hxv := (hl.2.2 x hx).1
    obtain ⟨i, hi, e⟩ := (hmem x).mp hx
    have hr := PGROUNDUP_spec pa_start (WF_no_wrap L hL pa_start (by omega))
    refine ⟨ValidFrame_ne_zero L hL x hxv, hxv.1, by omega, ?_⟩
    simp only [PGSIZE] at *
    omega

theorem freerange_then_kalloc_witness :
    ∃ s l, freerange demoLayout (boot (fun _ => 0)) 0x80000800 0x80004000 = .ok s ∧
      kinit demoLayout (boot (fun _ => 0)) = .ok { s with cow_init := 1 } ∧
      l.length = 3 ∧
      (∀ x, x ∈ l ↔ ∃ i, i < 3 ∧ x = 0x80001000 + i * 4096) ∧
      (kalloc_n demoLayout 3 { s with cow_init := 1 }).1 = l ∧
      (kalloc demoLayout (kalloc_n demoLayout 3 { s with cow_init := 1 }).2).1 = 0 := by
  obtain ⟨s, l, h1, h2, _, h4, _, h6, _, h8⟩ :=
    freerange_then_kalloc demoLayout (fun _ => 0) 0x80000800 0x80004000 (by decide) (by decide)
      (by decide) (by decide)
  have hK : (0x80004000 - PGROUNDUP 0x80000800) / 4096 = 3 := by decide
  have hp : PGROUNDUP 0x80000800 = 0x80001000 := by decide
  rw [hK] at h4 h6 h8
  rw [hp] at h6
  exact ⟨s, l, h1, h2 rfl rfl, h4, h6, (h8 1).1, (h8 1).2.2.2.2⟩

/-! ## Double free -/

/-- C5: after bootstrap (`cow_init = 1`), `kfree` of a valid frame whose count is
0 or less panics with "kfree: cow_count" in the unchanged state; and so does
`kfree` of every frame that is on the free list, in every state whose free list
holds frames of count 0, which every reachable state is. -/
theorem kfree_double_free (L : Layout) (s : State) (pa : Nat) (hinit : s.cow_init = 1)
    (hpa : ValidFrame L pa) (hc : s.cow_count (cow_index L pa) ≤ 0) :
    kfree L s pa = .panic .kfree_cow_count s ∧
      (∀ l, FreeListInv L s l → ∀ x ∈ l, kfree L s x = .panic .kfree_cow_count s) ∧
      (L.WF → Reachable L s → ∀ x, OnFreeList s x →
        kfree L s x = .panic .kfree_cow_count s) := by
  have h1 : s.cow_init ≠ 0 := by omega
  refine ⟨kfree_nonpositive L s pa hpa h1 hc, ?_, ?_⟩
  · intro l hl x hx
    exact kfree_nonpositive L s x (hl.2.2 x hx).1 h1 (le_of_eq (hl.2.2 x hx).2)
  · intro hL hr x hx
    obtain ⟨l, hinv⟩ := Reachable_Inv L hL s hr
    obtain ⟨l', hl', hx'⟩ := hx
    have e := IsFreeList_unique s.mem l' l s.freelist hl' hinv.1.1
    rw [e] at hx'
    exact kfree_nonpositive L s x (hinv.1.2.2 x hx').1 h1 (le_of_eq (hinv.1.2.2 x hx').2)

theorem kfree_double_free_witness :
    kfree demoLayout (demoState 0) 0x80001000 = .panic .kfree_cow_count (demoState 0) ∧
      kfree demoLayout (demoState 0) 0x80002000 = .panic .kfree_cow_count (demoState 0) :=
  have h := kfree_double_free demoLayout (demoState 0) 0x80001000 (by decide) (by decide)
    (by decide)
  ⟨h.1, h.2.1 [0x80002000] (by decide) 0x80002000 (by decide)⟩

/-! ## Release followed by allocation, and repeated release -/

/-- C11: in a well-formed state (in particular after bootstrap), `kfree` of a valid
frame `pa` whose count is 1 returns, and the `kalloc` that follows returns exactly
`pa`; afterwards the count of `pa` is 1 again, all 4096 bytes of `pa` are 5 (not
1), and the free list is the list `l` it was before the release, with the same
head. -/
theorem kfree_then_kalloc (L : Layout) (s : State) (pa : Nat) (l : List Nat)
    (hL : L.WF) (hpa : ValidFrame L pa) (hc : s.cow_count (cow_index L pa) = 1)
    (hl : FreeListInv L s l) :
    ∃ s1, kfree L s pa = .ok s1 ∧
      (kalloc L s1).1 = pa ∧ pa ≠ 0 ∧
      (kalloc L s1).2.cow_count (cow_index L pa) = 1 ∧
      (∀ i, i < 4096 →
        (kalloc L s1).2.mem (pa + i) = 5 ∧ (kalloc L s1).2.mem (pa + i) ≠ 1) ∧
      (kalloc L s1).2.freelist = s.freelist ∧
      IsFreeList (kalloc L s1).2.mem (kalloc L s1).2.freelist l ∧
      FreeListInv L (kalloc L s1).2 l := by
  have hn : ¬ (s.cow_init ≠ 0 ∧ s.cow_count (cow_index L pa) ≤ 0) := by omega
  have hnot : pa ∉ l := by
    intro hin
    have := (hl.2.2 pa hin).2
    omega
  have h1 := FreeListInv_recycle L hL s pa l hl hpa hnot
  have h2 := FreeListInv_kalloc L hL _ pa l h1
  refine ⟨_, kfree_recycle L s pa hpa hn (by omega), ?_, ValidFrame_ne_zero L hL pa hpa, ?_, ?_,
    ?_, h2.1, h2⟩
  · rw [kalloc_cons L _ pa l h1.1]
  · rw [kalloc_cons L _ pa l h1.1]
    simp
  · intro i hi
    rw [kalloc_cons L _ pa l h1.1]
    have e : memset (store64 (memset s.mem pa 1 PGSIZE) pa s.freelist) pa 5 PGSIZE (pa + i) = 5 :=
      memset_inside _ _ _ _ _ (by omega) (by simp only [PGSIZE]; omega)
    exact ⟨e, fun h => by have h5 := e.symm.trans h; omega⟩
  · rw [kalloc_cons L _ pa l h1.1]
    exact load64_store64 _ _ _ (FreeListInv_head_lt L hL s l hl)

theorem kfree_then_kalloc_witness :
    ∃ s1, kfree demoLayout (demoState 1) 0x80001000 = .ok s1 ∧
      (kalloc demoLayout s1).1 = 0x80001000 ∧ 0x80001000 ≠ 0 ∧
      (kalloc demoLayout s1).2.cow_count (cow_index demoLayout 0x80001000) = 1 ∧
      (∀ i, i < 4096 → (kalloc demoLayout s1).2.mem (0x80001000 + i) = 5 ∧
        (kalloc demoLayout s1).2.mem (0x80001000 + i) ≠ 1) ∧
      (kalloc demoLayout s1).2.freelist = (demoState 1).freelist ∧
      IsFreeList (kalloc demoLayout s1).2.mem (kalloc demoLayout s1).2.freelist [0x80002000] ∧
      FreeListInv demoLayout (kalloc demoLayout s1).2 [0x80002000] :=
  kfree_then_kalloc demoLayout (demoState 1) 0x80001000 [0x80002000]
    (by decide) (by decide) (by decide) (by decide)

/-- While the count exceeds the number of calls, `i` calls of `kfree` only lower the
count by `i`. -/
theorem kfree_n_decrement (L : Layout) (pa : Nat) (hpa : ValidFrame L pa) (i : Nat) :
    ∀ s : State, (i : Int) < s.cow_count (cow_index L pa) →
      ∃ si, kfree_n L i s pa = .ok si ∧
        si.cow_count (cow_index L pa) = s.cow_count (cow_index L pa) - i ∧
        si.freelist = s.freelist ∧ si.mem = s.mem ∧ si.cow_init = s.cow_init := by
  induction i with
  | zero =>
    intro s _
    exact ⟨s, rfl, by simp, rfl, rfl, rfl⟩
  | succ i ih =>
    intro s hs
    have hc : 1 < s.cow_count (cow_index L pa) := by push_cast at hs; omega
    obtain ⟨si, h1, h2, h3, h4, h5⟩ := ih { s with
      cow_count := Function.update s.cow_count (cow_index L pa)
        (s.cow_count (cow_index L pa) - 1) } (by simp; push_cast at hs; omega)
    refine ⟨si, ?_, ?_, h3, h4, h5⟩
    · simp only [kfree_n, kfree_decrement L s pa hpa hc]
      exact h1
    · rw [h2]
      simp
      omega

/-- From count `n + 1`, the run of `n + 1` calls of `kfree` returns with count 0 and
the frame pushed on the free list. -/
theorem kfree_n_last (L : Layout) (hL : L.WF) (pa : Nat) (hpa : ValidFrame L pa)
    (l : List Nat) (n : Nat) :
    ∀ s : State, s.cow_count (cow_index L pa) = (n : Int) + 1 → FreeListInv L s l →
      ∃ sn, kfree_n L (n + 1) s pa = .ok sn ∧ sn.cow_count (cow_index L pa) = 0 ∧
        FreeListInv L sn (pa :: l) := by
  induction n with
  | zero =>
    intro s hc hl
    have hc1 : s.cow_count (cow_index L pa) = 1 := by simpa using hc
    have hn : ¬ (s.cow_init ≠ 0 ∧ s.cow_count (cow_index L pa) ≤ 0) := by omega
    have hnot : pa ∉ l := by
      intro hin
      have := (hl.2.2 pa hin).2
      omega
    refine ⟨_, ?_, ?_, FreeListInv_recycle L hL s pa l hl hpa hnot⟩
    · simp only [kfree_n, kfree_recycle L s pa hpa hn (by omega)]
    · simp
  | succ n ih =>
    intro s hc hl
    have hc1 : 1 < s.cow_count (cow_index L pa) := by push_cast at hc; omega
    have hnot : pa ∉ l := by
      intro hin
      have := (hl.2.2 pa hin).2
      omega
    obtain ⟨sn, h1, h2, h3⟩ := ih { s with
      cow_count := Function.update s.cow_count (cow_index L pa)
        (s.cow_count (cow_index L pa) - 1) } (by simp; push_cast at hc; omega)
      (FreeListInv_update L hL s pa _ l hl hpa hnot)
    refine ⟨sn, ?_, h2, h3⟩
    rw [kfree_n]
    simp only [kfree_decrement L s pa hpa hc1]
    exact h1

/-- C12: a valid frame `pa` has count `n`, `n` at least 1, and the free list is `l`.
Then `n` consecutive calls of `kfree` all return: for `i < n` the first `i` calls
leave the count `n - i` and the free list (head and memory) unchanged, and the
`n` calls together leave the count 0 and the free list `pa :: l`, one frame
longer. -/
theorem kfree_n_times (L : Layout) (s : State) (pa : Nat) (l : List Nat) (n : Nat)
    (hL : L.WF) (hpa : ValidFrame L pa) (hn : 1 ≤ n)
    (hc : s.cow_count (cow_index L pa) = (n : Int)) (hl : FreeListInv L s l) :
    (∀ i, i < n → ∃ si, kfree_n L i s pa = .ok si ∧
        si.cow_count (cow_index L pa) = (n : Int) - i ∧
        si.freelist = s.freelist ∧ si.mem = s.mem ∧
        IsFreeList si.mem si.freelist l) ∧
      ∃ sn, kfree_n L n s pa = .ok sn ∧ sn.cow_count (cow_index L pa) = 0 ∧
        IsFreeList sn.mem sn.freelist (pa :: l) ∧ (pa :: l).length = l.length + 1 := by
  constructor
  · intro i hi
    obtain ⟨si, h1, h2, h3, h4, _⟩ :=
      kfree_n_decrement L pa hpa i s (by rw [hc]; exact_mod_cast hi)
    refine ⟨si, h1, by rw [h2, hc], h3, h4, ?_⟩
    rw [h3, h4]
    exact hl.1
  · obtain ⟨m, rfl⟩ : ∃ m, n = m + 1 := ⟨n - 1, by omega⟩
    obtain ⟨sn, h1, h2, h3⟩ := kfree_n_last L hL pa hpa l m s (by rw [hc]; push_cast; rfl) hl
    exact ⟨sn, h1, h2, h3.1, rfl⟩

theorem kfree_n_times_witness :
    (∀ i, i < 2 → ∃ si, kfree_n demoLayout i (demoState 2) 0x80001000 = .ok si ∧
        si.cow_count (cow_index demoLayout 0x80001000) = ((2 : Nat) : Int) - i ∧
        si.freelist = (demoState 2).freelist ∧ si.mem = (demoState 2).mem ∧
        IsFreeList si.mem si.freelist [0x80002000]) ∧
      ∃ sn, kfree_n demoLayout 2 (demoState 2) 0x80001000 = .ok sn ∧
        sn.cow_count (cow_index demoLayout 0x80001000) = 0 ∧
        IsFreeList sn.mem sn.freelist [0x80001000, 0x80002000] ∧
        [0x80001000, 0x80002000].length = [0x80002000].length + 1 :=
  kfree_n_times demoLayout (demoState 2) 0x80001000 [0x80002000] 2
    (by decide) (by decide) (by decide) (by decide) (by decide)

/-! ## Copy-on-write resolution: out of memory, flags, preconditions -/

/-- The three ways in which `cow_kalloc` ends once the old frame is released: out
of memory, the new mapping installed, or the panic on a failed `mappages`. -/
theorem cow_kalloc_cases (L : Layout) (room : Bool) (s s1 : State) (pagetable : PageTable)
    (va : Nat) (pte : Pte) (hw : walk pagetable va = some pte)
    (hf : kfree L s pte.pa = .ok s1) :
    ((kalloc L s1).1 = 0 ∧
        cow_kalloc L room s pagetable va
          = .ret 0 (kalloc L s1).2 (Function.update pagetable va none)) ∨
      ((kalloc L s1).1 ≠ 0 ∧ room = true ∧
        cow_kalloc L room s pagetable va
          = .ret (kalloc L s1).1
              { (kalloc L s1).2 with
                mem := memmove (kalloc L s1).2.mem (kalloc L s1).1 pte.pa PGSIZE }
              (Function.update (Function.update pagetable va none) va
                (some { pa := (kalloc L s1).1,
                        flags := andNot pte.flags L.PTE_COW ||| PTE_W }))) ∨
      ((kalloc L s1).1 ≠ 0 ∧ room = false ∧
        cow_kalloc L room s pagetable va
          = .panic .cow_kalloc_map
              { (kalloc L s1).2 with
                mem := memmove (kalloc L s1).2.mem (kalloc L s1).1 pte.pa PGSIZE }
              (Function.update pagetable va none)) := by
  rw [cow_kalloc_unfold L room s s1 pagetable va pte hw hf]
  by_cases h : (kalloc L s1).1 = 0
  · exact Or.inl ⟨h, by rw [if_pos h]⟩
  · cases room
    · exact Or.inr (Or.inr ⟨h, rfl, by rw [if_neg h]; rfl⟩)
    · exact Or.inr (Or.inl ⟨h, rfl, by rw [if_neg h]; rfl⟩)

/-- The run of `cow_kalloc` when the old frame is shared and no page is free. -/
theorem cow_kalloc_oom_run (L : Layout) (room : Bool) (s : State) (pagetable : PageTable)
    (va : Nat) (pte : Pte) (hw : walk pagetable va = some pte) (hpa : ValidFrame L pte.pa)
    (hc : 2 ≤ s.cow_count (cow_index L pte.pa)) (hempty : s.freelist = 0) :
    cow_kalloc L room s pagetable va
      = .ret 0 { s with
          cow_count := Function.update s.cow_count (cow_index L pte.pa)
            (s.cow_count (cow_index L pte.pa) - 1) }
        (Function.update pagetable va none) := by
  have hf := kfree_decrement L s pte.pa hpa (by omega)
  rw [cow_kalloc_unfold L room s _ pagetable va pte hw hf]
  simp [kalloc, hempty]

/-- C13 (counterexample): page `0x4000` is mapped to frame `0x80001000` of count 2
and no page is free.  `cow_kalloc` returns 0, but `0x4000` is no longer mapped
and the count of the old frame is 1: neither is as before the fault. -/
theorem cow_kalloc_oom_not_restored :
    ∃ s' pagetable',
      cow_kalloc demoLayout true (demoStateFull 2) demoPageTable 0x4000
        = .ret 0 s' pagetable' ∧
      walk demoPageTable 0x4000 = some { pa := 0x80001000, flags := 275 } ∧
      walk pagetable' 0x4000 = none ∧
      (demoStateFull 2).cow_count (cow_index demoLayout 0x80001000) = 2 ∧
      s'.cow_count (cow_index demoLayout 0x80001000) = 1 := by
  refine ⟨_, _, cow_kalloc_oom_run demoLayout true (demoStateFull 2) demoPageTable 0x4000
    { pa := 0x80001000, flags := 275 } (by decide) (by decide) (by decide) rfl, by decide, ?_,
    by decide, ?_⟩
  · simp [walk]
  · simp
    decide

/-- C13 (amended): when the old frame is a valid frame shared by at least two
owners and no page is free, `cow_kalloc` returns 0, whether or not `mappages`
would have room; the removal of the old mapping has preceded the allocation, so
`va` is then unmapped, while every other mapping, the memory contents and the
empty free list are as before. -/
theorem cow_kalloc_oom (L : Layout) (room : Bool) (s : State) (pagetable : PageTable)
    (va : Nat) (pte : Pte) (hw : walk pagetable va = some pte) (hpa : ValidFrame L pte.pa)
    (hc : 2 ≤ s.cow_count (cow_index L pte.pa)) (hempty : s.freelist = 0) :
    ∃ s' pagetable', cow_kalloc L room s pagetable va = .ret 0 s' pagetable' ∧
      walk pagetable' va = none ∧
      (∀ va', va' ≠ va → walk pagetable' va' = walk pagetable va') ∧
      s'.mem = s.mem ∧ s'.freelist = 0 ∧ s'.cow_init = s.cow_init := by
  refine ⟨_, _, cow_kalloc_oom_run L room s pagetable va pte hw hpa hc hempty, ?_, ?_, rfl,
    hempty, rfl⟩
  · simp [walk]
  · intro va' hne
    simp [walk, Function.update_noteq hne]

theorem cow_kalloc_oom_witness :
    ∃ s' pagetable',
      cow_kalloc demoLayout true (demoStateFull 3) demoPageTable 0x4000
        = .ret 0 s' pagetable' ∧
      walk pagetable' 0x4000 = none ∧
      (∀ va', va' ≠ 0x4000 → walk pagetable' va' = walk demoPageTable va') ∧
      s'.mem = (demoStateFull 3).mem ∧ s'.freelist = 0 ∧
      s'.cow_init = (demoStateFull 3).cow_init :=
  cow_kalloc_oom demoLayout true (demoStateFull 3) demoPageTable 0x4000
    { pa := 0x80001000, flags := 275 } (by decide) (by decide) (by decide) (by decide)

/-- C16: when `walk` finds no entry for `va`, `cow_kalloc` panics with
"cow_kalloc: old_pte should exist" at once: the allocator state (memory, free
list, counts) and the page table at the panic are those of the call. -/
theorem cow_kalloc_unmapped (L : Layout) (room : Bool) (s : State) (pagetable : PageTable)
    (va : Nat) (hw : walk pagetable va = none) :
    cow_kalloc L room s pagetable va = .panic .cow_kalloc_old_pte s pagetable ∧
      (cow_kalloc L room s pagetable va).state = s ∧
      (cow_kalloc L room s pagetable va).pagetable = pagetable ∧
      (cow_kalloc L room s pagetable va).returned = none := by
  have h : cow_kalloc L room s pagetable va = .panic .cow_kalloc_old_pte s pagetable := by
    simp only [cow_kalloc, hw]
  rw [h]
  exact ⟨rfl, rfl, rfl, rfl⟩

theorem cow_kalloc_unmapped_witness :
    cow_kalloc demoLayout true (demoState 2) demoPageTable 0x5000
        = .panic .cow_kalloc_old_pte (demoState 2) demoPageTable ∧
      (cow_kalloc demoLayout true (demoState 2) demoPageTable 0x5000).state = demoState 2 ∧
      (cow_kalloc demoLayout true (demoState 2) demoPageTable 0x5000).pagetable
        = demoPageTable ∧
      (cow_kalloc demoLayout true (demoState 2) demoPageTable 0x5000).returned = none :=
  cow_kalloc_unmapped demoLayout true (demoState 2) demoPageTable 0x5000 (by decide)

/-- Bit `i` of `a & ~b`. -/
theorem andNot_testBit (a b i : Nat) :
    (andNot a b).testBit i = (a.testBit i && !b.testBit i) := by
  unfold andNot
  exact Nat.testBit_bitwise rfl a b i

/-- Bit `i` of the permissions `(flags & ~PTE_COW) | PTE_W` computed by `cow_kalloc`. -/
theorem cow_perm_testBit (flags cow i : Nat) :
    (andNot flags cow ||| PTE_W).testBit i
      = ((flags.testBit i && !cow.testBit i) || decide (2 = i)) := by
  have h4 : PTE_W = 2 ^ 2 := rfl
  rw [Nat.testBit_or, andNot_testBit, h4, Nat.testBit_two_pow]

/-- A returned outcome is determined by its three components. -/
theorem CowOutcome.ret_eta (o : CowOutcome) (p : Nat) (h : o.returned = some p) :
    o = .ret p o.state o.pagetable := by
  cases o with
  | ret q s pt =>
    simp only [CowOutcome.returned, Option.some.injEq] at h
    subst h
    rfl
  | panic m s pt => simp [CowOutcome.returned] at h

/-- C14: when `cow_kalloc` returns a frame `new_pa` (not 0), `va` was mapped by an
entry `pte_old` and is now mapped to `new_pa` with the flags
`(pte_old.flags & ~PTE_COW) | PTE_W`: the write bit (bit 2) is set, every bit of
the COW marker is cleared, and every other bit (so Valid, Readable, Executable,
User when the marker is none of them) is as in the old mapping. -/
theorem cow_kalloc_flags (L : Layout) (room : Bool) (s s' : State)
    (pagetable pagetable' : PageTable) (va new_pa : Nat)
    (h : cow_kalloc L room s pagetable va = .ret new_pa s' pagetable')
    (hne : new_pa ≠ 0) :
    ∃ pte_old, walk pagetable va = some pte_old ∧
      walk pagetable' va
        = some { pa := new_pa, flags := andNot pte_old.flags L.PTE_COW ||| PTE_W } ∧
      (andNot pte_old.flags L.PTE_COW ||| PTE_W).testBit 2 = true ∧
      (∀ i, i ≠ 2 → L.PTE_COW.testBit i = true →
        (andNot pte_old.flags L.PTE_COW ||| PTE_W).testBit i = false) ∧
      (∀ i, i ≠ 2 → L.PTE_COW.testBit i = false →
        (andNot pte_old.flags L.PTE_COW ||| PTE_W).testBit i = pte_old.flags.testBit i) := by
  cases hw : walk pagetable va with
  | none => simp [cow_kalloc, hw] at h
  | some pte =>
    cases hf : kfree L s pte.pa with
    | panic m s1 => simp [cow_kalloc, uvmunmap, hw, hf] at h
    | ok s1 =>
      refine ⟨pte, rfl, ?_, ?_, ?_, ?_⟩
      · rcases cow_kalloc_cases L room s s1 pagetable va pte hw hf with
          ⟨_, e⟩ | ⟨_, _, e⟩ | ⟨_, _, e⟩
        · rw [e] at h
          injection h with h1 _ _
          exact absurd h1.symm hne
        · rw [e] at h
          injection h with h1 _ h3
          rw [← h3, ← h1]
          simp [walk]
        · rw [e] at h
          cases h
      · rw [cow_perm_testBit]
        simp
      · intro i hi hcow
        rw [cow_perm_testBit, hcow]
        simp
        omega
      · intro i hi hcow
        rw [cow_perm_testBit, hcow]
        have : ¬ (2 = i) := fun e => hi e.symm
        simp [this]

theorem cow_kalloc_flags_witness :
    ∃ pte_old, walk demoPageTable 0x4000 = some pte_old ∧
      walk (cow_kalloc demoLayout true (demoState 2) demoPageTable 0x4000).pagetable 0x4000
        = some { pa := 0x80002000,
                 flags := andNot pte_old.flags demoLayout.PTE_COW ||| PTE_W } ∧
      (andNot pte_old.flags demoLayout.PTE_COW ||| PTE_W).testBit 2 = true ∧
      (∀ i, i ≠ 2 → demoLayout.PTE_COW.testBit i = true →
        (andNot pte_old.flags demoLayout.PTE_COW ||| PTE_W).testBit i = false) ∧
      (∀ i, i ≠ 2 → demoLayout.PTE_COW.testBit i = false →
        (andNot pte_old.flags demoLayout.PTE_COW ||| PTE_W).testBit i
          = pte_old.flags.testBit i) :=
  cow_kalloc_flags demoLayout true (demoState 2)
    (cow_kalloc demoLayout true (demoState 2) demoPageTable 0x4000).state demoPageTable
    (cow_kalloc demoLayout true (demoState 2) demoPageTable 0x4000).pagetable 0x4000
    0x80002000 (CowOutcome.ret_eta _ _ (by decide)) (by decide)

/-- C18: while `cow_init` is 0, `kfree` of a valid frame whose count is 0 returns:
the count stays 0, the 4096 bytes of the frame are set to 1 and the frame is
pushed on the free list.  `kinit` sets `cow_init` to 1 only on the state in
which `freerange` has returned, with `cow_init` still 0 and every valid frame on
the free list; and in every state reachable afterwards `cow_init` is 1, so
`kfree` of a valid frame with count 0 or less panics. -/
theorem bootstrap_release (L : Layout) (s t : State) (pa : Nat) (mem : Mem) (hL : L.WF)
    (hinit : s.cow_init = 0) (hpa : ValidFrame L pa) (hc : s.cow_count (cow_index L pa) = 0)
    (hr : Reachable L t) :
    (∃ s' m1, kfree L s pa = .ok s' ∧ s'.cow_count (cow_index L pa) = 0 ∧ s'.cow_init = 0 ∧
        (∀ i, i < 4096 → m1 (pa + i) = 1) ∧
        (∀ a, a < pa ∨ pa + 4096 ≤ a → m1 a = s.mem a) ∧
        s'.mem = store64 m1 pa s.freelist ∧ s'.freelist = pa ∧
        (∀ l, FreeListInv L s l → pa ∉ l → IsFreeList s'.mem s'.freelist (pa :: l))) ∧
      (∃ s0 l, freerange L (boot mem) L.kend L.PHYSTOP = .ok s0 ∧ s0.cow_init = 0 ∧
        IsFreeList s0.mem s0.freelist l ∧ (∀ q, ValidFrame L q → q ∈ l) ∧
        kinit L (boot mem) = .ok { s0 with cow_init := 1 }) ∧
      (t.cow_init = 1 ∧ ∀ q, ValidFrame L q → t.cow_count (cow_index L q) ≤ 0 →
        kfree L t q = .panic .kfree_cow_count t) := by
  refine ⟨?_, ?_, ?_⟩
  · have hn : ¬ (s.cow_init ≠ 0 ∧ s.cow_count (cow_index L pa) ≤ 0) := by
      rw [hinit]; simp
    refine ⟨_, memset s.mem pa 1 PGSIZE, kfree_recycle L s pa hpa hn (by omega), ?_, hinit, ?_,
      ?_, rfl, rfl, ?_⟩
    · simp
    · intro i hi
      exact memset_inside _ _ _ _ _ (by omega) (by simp only [PGSIZE]; omega)
    · intro a ha
      exact memset_outside _ _ _ _ _ (by simp only [PGSIZE]; omega)
    · intro l hl hnot
      exact (FreeListInv_recycle L hL s pa l hl hpa hnot).1
  · obtain ⟨s0, hs0, h0, _, hl⟩ :=
      freerange_boot L hL mem L.kend L.PHYSTOP hL.2.2.1 (le_refl _) (le_refl _)
    refine ⟨s0, _, hs0, h0, hl.1, ?_, by simp only [kinit, hs0]⟩
    intro q hq
    rw [mem_pushed]
    right
    have hround := PGROUNDUP_spec L.kend (WF_no_wrap L hL L.kend hL.2.2.1)
    obtain ⟨_, _, _, _, h5, _⟩ := hL
    obtain ⟨a1, a2, a3⟩ := hq
    refine ⟨(q - PGROUNDUP L.kend) / PGSIZE, ?_, ?_⟩
    · simp only [PGSIZE] at *
      omega
    · simp only [PGSIZE] at *
      omega
  · obtain ⟨l, hinv⟩ := Reachable_Inv L hL t hr
    refine ⟨hinv.2.2, ?_⟩
    intro q hq hle
    exact kfree_nonpositive L t q hq (by rw [hinv.2.2]; decide) hle

theorem bootstrap_release_witness :
    (∃ s' m1, kfree demoLayout (boot (fun _ => 0)) 0x80001000 = .ok s' ∧
        s'.cow_count (cow_index demoLayout 0x80001000) = 0 ∧ s'.cow_init = 0 ∧
        (∀ i, i < 4096 → m1 (0x80001000 + i) = 1) ∧
        (∀ a, a < 0x80001000 ∨ 0x80001000 + 4096 ≤ a → m1 a = (boot (fun _ => 0)).mem a) ∧
        s'.mem = store64 m1 0x80001000 (boot (fun _ => 0)).freelist ∧
        s'.freelist = 0x80001000 ∧
        (∀ l, FreeListInv demoLayout (boot (fun _ => 0)) l → 0x80001000 ∉ l →
          IsFreeList s'.mem s'.freelist (0x80001000 :: l))) ∧
      (∃ s0 l, freerange demoLayout (boot (fun _ => 0)) demoLayout.kend demoLayout.PHYSTOP
          = .ok s0 ∧ s0.cow_init = 0 ∧
        IsFreeList s0.mem s0.freelist l ∧ (∀ q, ValidFrame demoLayout q → q ∈ l) ∧
        kinit demoLayout (boot (fun _ => 0)) = .ok { s0 with cow_init := 1 }) ∧
      (demoBooted.cow_init = 1 ∧
        ∀ q, ValidFrame demoLayout q → demoBooted.cow_count (cow_index demoLayout q) ≤ 0 →
          kfree demoLayout demoBooted q = .panic .kfree_cow_count demoBooted) :=
  bootstrap_release demoLayout (boot (fun _ => 0)) demoBooted 0x80001000 (fun _ => 0)
    (by decide) (by decide) (by decide) (by decide)
    (Reachable.init (fun _ => 0) demoBooted (kinit_state_eq demoLayout (by decide) _))

/-! ## Bounds of the table index -/

/-- C19 (counterexample): `hugeLayout` satisfies `KERNBASE ≤ end ≤ PHYSTOP` with
`KERNBASE` and `PHYSTOP` page-aligned, and the address `0x80080000000` passes the
check of `kfree`; the quotient `(pa - KERNBASE) / PGSIZE` is `2 ^ 31`, and the
`int` index computed from it is negative. -/
theorem cow_index_wraps :
    hugeLayout.KERNBASE ≤ hugeLayout.kend ∧ hugeLayout.kend ≤ hugeLayout.PHYSTOP ∧
      hugeLayout.KERNBASE % 4096 = 0 ∧ hugeLayout.PHYSTOP % 4096 = 0 ∧
      hugeLayout.PHYSTOP < 2 ^ 64 ∧ ValidFrame hugeLayout 0x80080000000 ∧
      (0x80080000000 - hugeLayout.KERNBASE) / 4096 = 2 ^ 31 ∧
      cow_index hugeLayout 0x80080000000 = -2147483648 ∧
      ¬ (0 ≤ cow_index hugeLayout 0x80080000000) := by
  decide

theorem cow_index_eq (L : Layout) (pa : Nat) (h1 : L.KERNBASE ≤ pa) (h2 : pa < L.PHYSTOP)
    (h3 : L.PHYSTOP < 2 ^ 64) (h4 : NFRAMES L < 2 ^ 31) :
    cow_index L pa = ((pa - L.KERNBASE) / PGSIZE : Nat) := by
  simp only [NFRAMES, PGSIZE] at h4
  norm_num at h3 h4
  have e1 : (pa + 2 ^ 64 - L.KERNBASE) % 2 ^ 64 = pa - L.KERNBASE := by
    norm_num
    omega
  have e2 : (pa - L.KERNBASE) / 4096 % 2 ^ 32 = (pa - L.KERNBASE) / 4096 := by
    norm_num
    omega
  have e3 : (pa - L.KERNBASE) / 4096 < 2 ^ 31 := by
    norm_num
    omega
  simp only [cow_index, toInt32, PGSIZE, e1, e2, e3, if_true]

/-- C19 (amended): assume `KERNBASE ≤ end ≤ PHYSTOP < 2 ^ 64`, `KERNBASE` and
`PHYSTOP` page-aligned, and fewer than `2 ^ 31` table entries.  Then for every
address that passes the check of `kfree`, and for every frame returned by
`kalloc`, the index is `(pa - KERNBASE) / 4096` and lies in
`[0, (PHYSTOP - KERNBASE) / 4096)`; and two distinct addresses that pass the
check have distinct indices. -/
theorem cow_index_in_bounds (L : Layout) (h1 : L.KERNBASE ≤ L.kend) (h2 : L.kend ≤ L.PHYSTOP)
    (h3 : L.PHYSTOP < 2 ^ 64) (h4 : L.KERNBASE % 4096 = 0) (h5 : L.PHYSTOP % 4096 = 0)
    (h6 : NFRAMES L < 2 ^ 31) :
    (∀ pa, ValidFrame L pa →
        cow_index L pa = ((pa - L.KERNBASE) / 4096 : Nat) ∧
        0 ≤ cow_index L pa ∧ cow_index L pa < (NFRAMES L : Int)) ∧
      (∀ s l, FreeListInv L s l → (kalloc L s).1 ≠ 0 →
        0 ≤ cow_index L (kalloc L s).1 ∧ cow_index L (kalloc L s).1 < (NFRAMES L : Int)) ∧
      (∀ x y, ValidFrame L x → ValidFrame L y → x ≠ y →
        cow_index L x ≠ cow_index L y) := by
  have hb : ∀ pa, ValidFrame L pa →
      cow_index L pa = ((pa - L.KERNBASE) / 4096 : Nat) ∧
      0 ≤ cow_index L pa ∧ cow_index L pa < (NFRAMES L : Int) := by
    intro pa hpa
    obtain ⟨a1, a2, a3⟩ := hpa
    have e := cow_index_eq L pa (by omega) a3 h3 h6
    rw [e]
    refine ⟨rfl, by positivity, ?_⟩
    have : (pa - L.KERNBASE) / PGSIZE < NFRAMES L := by
      simp only [NFRAMES, PGSIZE] at *
      omega
    exact_mod_cast this
  refine ⟨hb, ?_, ?_⟩
  · intro s l hl hne
    have hret : (kalloc L s).1 = s.freelist := by
      unfold kalloc
      by_cases h : s.freelist = 0 <;> simp [h]
    rw [hret] at hne ⊢
    rcases IsFreeList_head _ _ _ hl.1 with h0 | hin
    · exact absurd h0 hne
    · exact (hb _ (hl.2.2 _ hin).1).2
  · intro x y hx hy hne e
    rw [(hb x hx).1, (hb y hy).1] at e
    have e' : (x - L.KERNBASE) / 4096 = (y - L.KERNBASE) / 4096 := by exact_mod_cast e
    obtain ⟨a1, a2, _⟩ := hx
    obtain ⟨b1, b2, _⟩ := hy
    simp only [PGSIZE] at *
    omega

theorem cow_index_in_bounds_witness :
    (∀ pa, ValidFrame demoLayout pa →
        cow_index demoLayout pa = ((pa - demoLayout.KERNBASE) / 4096 : Nat) ∧
        0 ≤ cow_index demoLayout pa ∧ cow_index demoLayout pa < (NFRAMES demoLayout : Int)) ∧
      (∀ s l, FreeListInv demoLayout s l → (kalloc demoLayout s).1 ≠ 0 →
        0 ≤ cow_index demoLayout (kalloc demoLayout s).1 ∧
        cow_index demoLayout (kalloc demoLayout s).1 < (NFRAMES demoLayout : Int)) ∧
      (∀ x y, ValidFrame demoLayout x → ValidFrame demoLayout y → x ≠ y →
        cow_index demoLayout x ≠ cow_index demoLayout y) :=
  cow_index_in_bounds demoLayout (by decide) (by decide) (by decide) (by decide) (by decide)
    (by decide)

/-! ## Frame effects of kfree and kalloc -/

/-- A call of `kfree` panics in the state of the call, or returns the state with the
count of the frame lowered, or returns the state with the frame recycled. -/
theorem kfree_outcome_cases (L : Layout) (s : State) (pa : Nat) :
    (∃ m, kfree L s pa = .panic m s) ∨
      (ValidFrame L pa ∧ kfree L s pa = .ok { s with
        cow_count := Function.update s.cow_count (cow_index L pa)
          (s.cow_count (cow_index L pa) - 1) }) ∨
      (ValidFrame L pa ∧ kfree L s pa = .ok { s with
        cow_count := Function.update s.cow_count (cow_index L pa) 0
        mem := store64 (memset s.mem pa 1 PGSIZE) pa s.freelist
        freelist := pa }) := by
  by_cases hv : pa % PGSIZE ≠ 0 ∨ pa < L.kend ∨ pa ≥ L.PHYSTOP
  · exact Or.inl ⟨_, kfree_invalid L s pa hv⟩
  · have hpa : ValidFrame L pa := by
      unfold ValidFrame
      omega
    by_cases h1 : s.cow_init ≠ 0 ∧ s.cow_count (cow_index L pa) ≤ 0
    · exact Or.inl ⟨_, kfree_nonpositive L s pa hpa h1.1 h1.2⟩
    · by_cases h2 : 1 < s.cow_count (cow_index L pa)
      · exact Or.inr (Or.inl ⟨hpa, kfree_decrement L s pa hpa h2⟩)
      · exact Or.inr (Or.inr ⟨hpa, kfree_recycle L s pa hpa h1 (by omega)⟩)

/-- C20: a call `kfree(pa)` changes no entry of `cow_count` other than that of
`pa` (so the count of no other valid frame) and no byte outside the page of
`pa`, and when it panics the state is unchanged; a call of `kalloc` returning `f`
changes no entry other than that of `f` and no byte outside the page of `f`, and
when it returns 0 the state is unchanged. -/
theorem kfree_kalloc_frame (L : Layout) (s : State) (pa : Nat) :
    (∀ i, i ≠ cow_index L pa → (kfree L s pa).state.cow_count i = s.cow_count i) ∧
      (∀ a, a < pa ∨ pa + 4096 ≤ a → (kfree L s pa).state.mem a = s.mem a) ∧
      (∀ m t, kfree L s pa = .panic m t → t = s) ∧
      (L.WF → ∀ q, ValidFrame L q → q ≠ pa →
        (kfree L s pa).state.cow_count (cow_index L q) = s.cow_count (cow_index L q)) ∧
      (∀ i, i ≠ cow_index L (kalloc L s).1 → (kalloc L s).2.cow_count i = s.cow_count i) ∧
      (∀ a, a < (kalloc L s).1 ∨ (kalloc L s).1 + 4096 ≤ a →
        (kalloc L s).2.mem a = s.mem a) ∧
      ((kalloc L s).1 = 0 → (kalloc L s).2 = s) ∧
      (L.WF → ∀ l, FreeListInv L s l → ∀ q, ValidFrame L q → q ≠ (kalloc L s).1 →
        (kalloc L s).2.cow_count (cow_index L q) = s.cow_count (cow_index L q)) := by
  have hk1 : ∀ i, i ≠ cow_index L pa → (kfree L s pa).state.cow_count i = s.cow_count i := by
    intro i hi
    rcases kfree_outcome_cases L s pa with ⟨m, e⟩ | ⟨_, e⟩ | ⟨_, e⟩
    · rw [e]; rfl
    · rw [e]; exact Function.update_noteq hi _ _
    · rw [e]; exact Function.update_noteq hi _ _
  have ha1 : ∀ i, i ≠ cow_index L (kalloc L s).1 →
      (kalloc L s).2.cow_count i = s.cow_count i := by
    intro i hi
    unfold kalloc at hi ⊢
    by_cases h0 : s.freelist = 0
    · simp [h0]
    · simp only [h0, ne_eq, not_false_eq_true, if_true] at hi ⊢
      exact Function.update_noteq hi _ _
  have hret : (kalloc L s).1 = s.freelist := by
    unfold kalloc
    by_cases h : s.freelist = 0 <;> simp [h]
  refine ⟨hk1, ?_, ?_, ?_, ha1, ?_, ?_, ?_⟩
  · intro a ha
    rcases kfree_outcome_cases L s pa with ⟨m, e⟩ | ⟨_, e⟩ | ⟨_, e⟩
    · rw [e]; rfl
    · rw [e]; rfl
    · rw [e]
      show store64 (memset s.mem pa 1 PGSIZE) pa s.freelist a = s.mem a
      rw [store64_outside _ _ _ _ (by omega),
        memset_outside _ _ _ _ _ (by simp only [PGSIZE]; omega)]
  · intro m t h
    rcases kfree_outcome_cases L s pa with ⟨m', e⟩ | ⟨_, e⟩ | ⟨_, e⟩
    · rw [e] at h
      injection h with _ h2
      exact h2.symm
    · rw [e] at h
      cases h
    · rw [e] at h
      cases h
  · intro hL q hq hne
    by_cases hv : ValidFrame L pa
    · exact hk1 _ (fun e => hne (cow_index_inj L hL q pa hq hv e))
    · have hbad : pa % PGSIZE ≠ 0 ∨ pa < L.kend ∨ pa ≥ L.PHYSTOP := by
        unfold ValidFrame at hv
        omega
      rw [kfree_invalid L s pa hbad]
      rfl
  · intro a ha
    rw [hret] at ha
    unfold kalloc
    by_cases h0 : s.freelist = 0
    · simp [h0]
    · simp only [h0, ne_eq, not_false_eq_true, if_true]
      exact memset_outside _ _ _ _ _ (by simp only [PGSIZE]; omega)
  · intro h
    rw [hret] at h
    simp [kalloc, h]
  · intro hL l hl q hq hne
    rw [hret] at hne
    rcases IsFreeList_head _ _ _ hl.1 with h0 | hin
    · simp [kalloc, h0]
    · refine ha1 _ ?_
      rw [hret]
      exact fun e => hne (cow_index_inj L hL q _ hq (hl.2.2 _ hin).1 e)

theorem kfree_kalloc_frame_witness :
    (kfree demoLayout (demoState 1) 0x80001000).state.cow_count 3 = (demoState 1).cow_count 3 ∧
      (kfree demoLayout (demoState 1) 0x80001000).state.mem 0x80002000
        = (demoState 1).mem 0x80002000 ∧
      (kfree demoLayout (demoState 1) 0x80001000).state.cow_count
          (cow_index demoLayout 0x80003000)
        = (demoState 1).cow_count (cow_index demoLayout 0x80003000) ∧
      (kalloc demoLayout (demoState 1)).2.cow_count 1 = (demoState 1).cow_count 1 ∧
      (kalloc demoLayout (demoState 1)).2.mem 0x80001000 = (demoState 1).mem 0x80001000 ∧
      (kalloc demoLayout (demoState 1)).2.cow_count (cow_index demoLayout 0x80001000)
        = (demoState 1).cow_count (cow_index demoLayout 0x80001000) :=
  have h := kfree_kalloc_frame demoLayout (demoState 1) 0x80001000
  ⟨h.1 3 (by decide), h.2.1 0x80002000 (by decide),
   h.2.2.2.1 (by decide) 0x80003000 (by decide) (by decide),
   h.2.2.2.2.1 1 (by decide), h.2.2.2.2.2.1 0x80001000 (by decide),
   h.2.2.2.2.2.2.2 (by decide) [0x80002000] (by decide) 0x80001000 (by decide) (by decide)⟩

end Kalloc
